import Mathlib

/-!
Verification of the rational-function analysis engine and the network
algebra of `mcircuit.py`.

The Python code manipulates sympy expressions.  We shallowly embed the
parts the claims are about:

* polynomials in the frequency variable are embedded as little-endian
  coefficient lists over an arbitrary field `K` (mirroring `sym.Poly`);
* the external symbolic primitives used by the code are modelled
  mathematically: `sym.roots` becomes root/multiplicity data constrained
  by a factorisation hypothesis, `sym.diff` on a quotient becomes the
  quotient rule on numerator/denominator pairs, and `sym.limit` at a
  point becomes "cancel common `(x - p)` factors, then evaluate"
  (exactly the value of the limit of a rational function when it is
  finite; the code only takes limits that exist);
* sympy's `1/0 = zoo` propagation never raises, so in the places where
  the Python code divides by an exact symbolic zero and keeps going we
  use the Lean field convention `1/0 = 0`: the claims under study only
  depend on *whether* an error is raised, never on the junk value;
* one-port and two-port networks become inductive data mirroring the
  Python class tags, and the in-place sympy matrix edits of the
  three-port methods are modelled with an explicit heap of matrix and
  vector objects so that aliasing and mutation are faithfully captured.

Semantic statements interpret coefficient lists into `Polynomial K`.
-/

set_option linter.unusedSectionVars false

namespace Mcircuit


open Polynomial

variable {K : Type} [Field K] [DecidableEq K]

/-- Coefficient list of a polynomial, little endian: `[a0, a1, a2]`
represents `a0 + a1*x + a2*x^2`.  Mirrors the data of `sym.Poly`. -/
abbrev Cf (K : Type) := List K

/-- Addition of coefficient lists (pointwise with padding). -/
def addC : Cf K → Cf K → Cf K
  | [], l => l
  | l, [] => l
  | a :: l, b :: m => (a + b) :: addC l m

/-- Scalar multiple of a coefficient list. -/
def smulC (a : K) (l : Cf K) : Cf K := l.map (fun b => a * b)

/-- Negation of a coefficient list. -/
def negC (l : Cf K) : Cf K := l.map (fun b => -b)

/-- Subtraction of coefficient lists. -/
def subC (l m : Cf K) : Cf K := addC l (negC m)

/-- Product of coefficient lists. -/
def mulC : Cf K → Cf K → Cf K
  | [], _ => []
  | a :: l, m => addC (smulC a m) ((0 : K) :: mulC l m)

/-- Power of a coefficient list. -/
def powC (l : Cf K) : Nat → Cf K
  | 0 => [1]
  | n + 1 => mulC l (powC l n)

/-- The polynomial `x - p` as a coefficient list. -/
def xsubC (p : K) : Cf K := [-p, 1]

/-- Evaluation of a coefficient list (Horner form). -/
def evalC (l : Cf K) (x : K) : K := l.foldr (fun a acc => a + x * acc) 0

/-- Auxiliary worker for the formal derivative. -/
def derivAux (n : Nat) : Cf K → Cf K
  | [] => []
  | a :: l => (n : K) * a :: derivAux (n + 1) l

/-- Formal derivative of a coefficient list. -/
def derivC : Cf K → Cf K
  | [] => []
  | _ :: l => derivAux 1 l

/-- Strip trailing zero coefficients (the normal form `sym.Poly` keeps). -/
def normC : Cf K → Cf K
  | [] => []
  | a :: l =>
    match normC l with
    | [] => if a = 0 then [] else [a]
    | b :: m => a :: b :: m

/-- Leading coefficient, `sym.Poly.LC`. -/
def lcC (l : Cf K) : K := (normC l).getLastD 0

/-- Interpretation of a coefficient list as a Mathlib polynomial.  This is
only used in specifications and proofs, never executed. -/
noncomputable def toPoly : Cf K → Polynomial K
  | [] => 0
  | a :: l => C a + X * toPoly l

/-- The monomial `c * x^k` as a coefficient list. -/
def monomC (k : Nat) (c : K) : Cf K := List.replicate k 0 ++ [c]

/-- Degree proxy used for fuel: the length of the normal form. -/
def dlen (l : Cf K) : Nat := (normC l).length

/-- Worker for polynomial long division.  `D` is assumed normalised and
nonempty; `fuel` bounds the number of elimination steps. -/
def divModAux : Nat → Cf K → Cf K → Cf K × Cf K
  | 0, N, _ => ([], N)
  | fuel + 1, N, D =>
    let Nn := normC N
    if Nn.length < D.length then ([], N)
    else
      let k := Nn.length - D.length
      let c := Nn.getLastD 0 / D.getLastD 0
      let qr := divModAux fuel (subC N (mulC (monomC k c) D)) D
      (addC qr.1 (monomC k c), qr.2)

/-- Polynomial division with remainder, mirroring `sym.Poly.div` (which
normalises its arguments).  Division by the zero polynomial raises in
sympy; here it returns the junk value `([], N)`. -/
def divModC (N D : Cf K) : Cf K × Cf K :=
  let Dn := normC D
  if Dn = ([] : Cf K) then ([], N) else divModAux (dlen N + 1) N Dn

/-- Numerator/denominator pair: the shape in which the code holds the
quotients `M/D`, `M*(x-p)/D`, `M*(x-p)^N/D` it differentiates and takes
limits of. -/
abbrev RatP (K : Type) := Cf K × Cf K

/-- Quotient-rule derivative on a numerator/denominator pair.  `sym.diff`
applied to a quotient produces a symbolic expression equal, as a rational
function, to this pair. -/
def pderivC (q : RatP K) : RatP K :=
  (subC (mulC (derivC q.1) q.2) (mulC q.1 (derivC q.2)), mulC q.2 q.2)

/-- Quotient on dividing a coefficient list by `x - p`. -/
def quotXsub (l : Cf K) (p : K) : Cf K := (divModC l (xsubC p)).1

/-- Worker modelling `sym.limit` for a quotient of polynomials at a
point: if the denominator does not vanish, evaluate; if both vanish,
cancel one factor of `x - p` and repeat; if only the numerator survives
the limit is infinite and the result is a junk value. -/
def limitAux (fuel : Nat) (A B : Cf K) (p : K) : K :=
  match fuel with
  | 0 => 0
  | fuel + 1 =>
    if evalC B p = 0 then
      if evalC A p = 0 then limitAux fuel (quotXsub A p) (quotXsub B p) p
      else 0
    else evalC A p / evalC B p

/-- Model of `sym.limit(A/B, var, p)` for rational functions: correct
whenever the limit is finite (the only case the code relies on). -/
def limitAtC (A B : Cf K) (p : K) : K := limitAux (dlen B + 1) A B p

/-- Mathlib-level numerator/denominator pair and its quotient-rule
derivative: the reference meaning of `d/dx (A/B)` in the specification. -/
noncomputable def pderivP (q : Polynomial K × Polynomial K) :
    Polynomial K × Polynomial K :=
  (derivative q.1 * q.2 - q.1 * derivative q.2, q.2 * q.2)

/-- Interpretation of an executable pair at the Mathlib level. -/
noncomputable def toPolyP (q : RatP K) : Polynomial K × Polynomial K :=
  (toPoly q.1, toPoly q.2)

/-- Value of the `j`-th quotient-rule derivative of `A/B` at `p`: the
reference reading of `lim_(x->p) d^j/dx^j (A/B)` when `B p` is nonzero
after cancellation. -/
noncomputable def ratDerivVal (A B : Polynomial K) (p : K) (j : Nat) : K :=
  ((pderivP^[j] (A, B)).1).eval p / ((pderivP^[j] (A, B)).2).eval p

/-- Root/multiplicity data as returned by the external `sym.roots`
primitive (a mapping from root to multiplicity, here an association
list). -/
abbrev RootData (K : Type) := List (K × Nat)

/-- Factor/coefficient entries produced for one pole by the loop of
`residues` (mcircuit.py lines 201-219): for a simple pole the pair
`(x - p, lim_(x->p) M*(x-p)/D)`; for a pole of multiplicity `N` the
pairs `((x - p)^n, lim_(x->p) d^(N-n)/dx^(N-n) (M*(x-p)^N/D) / (N-n)!)`
for `n = 1..N`. -/
def residueBlock (M D : Cf K) (pr : K × Nat) : List (Cf K × K) :=
  if pr.2 = 1 then
    [(xsubC pr.1, limitAtC (mulC M (xsubC pr.1)) D pr.1)]
  else
    (List.range pr.2).map (fun k =>
      (powC (xsubC pr.1) (k + 1),
        limitAtC (pderivC^[pr.2 - (k + 1)] (mulC M (powC (xsubC pr.1) pr.2), D)).1
          (pderivC^[pr.2 - (k + 1)] (mulC M (powC (xsubC pr.1) pr.2), D)).2 pr.1 /
          ((pr.2 - (k + 1)).factorial : K)))

/-- Embedding of `residues(expr, var)` (lines 190-221): divide `N` by `D`
(`Q, M = N.div(D)`), recompute the poles of `M/D` (`sym` rewrites the
quotient with a zero numerator to `0`, whose denominator `1` has no
roots; otherwise the denominator is `D` and its root data is `P`), then
walk the poles collecting factors and residues; return the paired
factor/residue list (`zip(F, R)`) together with the quotient `Q`. -/
def residuesC (N D : Cf K) (P : RootData K) : List (Cf K × K) × Cf K :=
  let QM := divModC N D
  let Ppoles := if normC QM.2 = ([] : Cf K) then [] else P
  ((Ppoles.map (residueBlock QM.2 D)).flatten, QM.1)

/-- An expression that is the product of a rational function `num/den`
and a pure delay exponential `exp(c0 * var)` (with `c0 = 0` meaning no
exponential factor): the input domain the claims quantify over.  A
nonzero product `g(x) * exp(a*x)` determines the pair `(g, a)` uniquely,
so two such expressions are algebraically equal iff the exponential
coefficients agree and the rational parts agree as rational functions. -/
structure DExpr (K : Type) where
  num : Cf K
  den : Cf K
  c0 : K

/-- Embedding of `_as_ratfun_delay` (lines 252-274) on the `DExpr`
domain: a factor `exp(c0*var + c1)` of degree one in `var` contributes
`delay -= c0` (here `c1 = 0`, a pure delay, so no scalar gain is folded
into the rational part), and the remaining factors multiply into the
rational function `num/den`. -/
def asRatfunDelay (e : DExpr K) : (Cf K × Cf K) × K := ((e.num, e.den), -e.c0)

/-- Result shape of `partfrac`: quotient polynomial `Q`, residue terms
`r/f`, and the delay reapplied as the factor `exp(-delay*var)` (when
`delay = 0` the multiplication is skipped, which denotes the same
expression). -/
structure PFExpr (K : Type) where
  Q : Cf K
  terms : List (Cf K × K)
  delay : K

/-- Embedding of `partfrac(expr, var)` (lines 224-237). -/
def partfracC (e : DExpr K) (P : RootData K) : PFExpr K :=
  let rd := asRatfunDelay e
  let FRQ := residuesC rd.1.1 rd.1.2 P
  ⟨FRQ.2, FRQ.1, rd.2⟩

/-- Value at `x` of the rational part `Q + sum r/f` of a partial
fraction expansion. -/
def evalPF (f : PFExpr K) (x : K) : K :=
  evalC f.Q x + (f.terms.map (fun t => t.2 / evalC t.1 x)).sum

/-- Exponential coefficient denoted by a `PFExpr`: the factor reapplied
at line 235 is `exp(-delay*var)`. -/
def expCoeffPF (f : PFExpr K) : K := -f.delay

/-- Result shape of `PZK` (lines 277-292): gain, zero/pole root data, and
the coefficient of `var` in the exponential with which the gain is
scaled (line 287 multiplies the gain by `exp(var*delay)`; zero when
there is no delay). -/
structure PZKExpr (K : Type) where
  gain : K
  zeros : RootData K
  poles : RootData K
  expCoeff : K

/-- Embedding of `PZK(expr, var)` (lines 277-292).  Note the code
iterates `for z in zeros` over the root dictionaries, i.e. over the
distinct roots, and it multiplies the gain by `exp(var*delay)`. -/
def PZKC (e : DExpr K) (ZP PP : RootData K) : PZKExpr K :=
  let rd := asRatfunDelay e
  { gain := lcC rd.1.1 / lcC rd.1.2
    zeros := ZP
    poles := PP
    expCoeff := rd.2 }

/-- Value at `x` of the rational part of the product returned by `PZK`:
gain times the product of `(x - z)` over distinct zeros times the
product of `1/(x - p)` over distinct poles. -/
def evalPZK (g : PZKExpr K) (x : K) : K :=
  g.gain * (g.zeros.map (fun z => x - z.1)).prod / (g.poles.map (fun p => x - p.1)).prod

/-- Mathlib-level product denoted by root data. -/
noncomputable def mprod (P : RootData K) : Polynomial K :=
  (P.map (fun pr => (X - C pr.1) ^ pr.2)).prod

/-- Executable product of the root factors, used to state the contract
of the external `sym.roots` primitive decidably. -/
def prodRootsC (P : RootData K) : Cf K :=
  P.foldr (fun pr acc => mulC (powC (xsubC pr.1) pr.2) acc) [1]

/-- Contract of the external `sym.roots` primitive for the denominator
`D`: the root data `P` is a complete factorisation `D = c * prod
(x - p)^m` with pairwise distinct roots, positive multiplicities and a
nonzero leading coefficient.  Stated over normal forms so that it is
decidable on concrete inputs. -/
def FactorHyp (D : Cf K) (P : RootData K) (c : K) : Prop :=
  normC D = normC (smulC c (prodRootsC P)) ∧ c ≠ 0 ∧
    P.Pairwise (fun a b => a.1 ≠ b.1) ∧ ∀ pr ∈ P, 1 ≤ pr.2

instance (D : Cf K) (P : RootData K) (c : K) : Decidable (FactorHyp D P c) := by
  unfold FactorHyp
  infer_instance

/-- The denominator factor attached to the `i`-th pole: `D` with the
`i`-th pole's own factor removed. -/
noncomputable def polesD (P : RootData K) (c : K) (i : Fin P.length) : Polynomial K :=
  C c * ∏ l ∈ Finset.univ.erase i, (X - C (P.get l).1) ^ (P.get l).2

/-- The local Taylor polynomial at the `i`-th pole whose coefficients
are the residues of rank `m_i - j`. -/
noncomputable def polesPsum (Mh : Polynomial K) (P : RootData K) (c : K)
    (i : Fin P.length) : Polynomial K :=
  ∑ j ∈ Finset.range (P.get i).2,
    C (ratDerivVal Mh (polesD P c i) (P.get i).1 j / (j.factorial : K)) *
      (X - C (P.get i).1) ^ j

/-- Limit of the rational function `A/B` as `x` tends to `p`, expressed
algebraically: after cancelling a common power of `(x - p)`, the
denominator is regular at `p` and evaluates the quotient to `L`.  For a
finite limit this is exactly `lim_(x->p) A/B = L`, and `L` is uniquely
determined. -/
def RatLimitAt (A B : Polynomial K) (p L : K) : Prop :=
  ∃ (j : Nat) (A' B' : Polynomial K), A = (X - C p) ^ j * A' ∧ B = (X - C p) ^ j * B' ∧
    B'.eval p ≠ 0 ∧ L = A'.eval p / B'.eval p

/-! ## One-port network algebra (Thevenin/Norton values and composition) -/

/-- Errors raised by the topological guards of the one-port composition
methods (`ValueError` messages in the Python code). -/
inductive NetErr where
  | currentInSeries
  | voltageInParallel
  deriving DecidableEq

/-- One-port networks, tagged by the Python runtime class that holds
them: `R`, `G`, `L`, `C`, `V`, `I`, and the raw `Thevenin`/`Norton`
pairs.  Stored values are the s-domain values held in the instance
attributes (so `V`/`I` store the already-integrated source values). -/
inductive OnePortN (K : Type) where
  | res (r : K)
  | cond (g : K)
  | ind (l i0 : K)
  | cap (c v0 : K)
  | vsrc (v : K)
  | isrc (i : K)
  | thev (z v : K)
  | nort (y i : K)
  deriving DecidableEq

/-- `V(Vval)` (lines 1168-1170): impedance `0` and stored voltage
`_V(Vval).integrate() = Vval/s`. -/
def mkV (s v : K) : OnePortN K := .vsrc (v / s)

/-- `I(Ival)` (lines 1204-1206): admittance `0` and stored current
`_I(Ival).integrate() = Ival/s`. -/
def mkI (s i : K) : OnePortN K := .isrc (i / s)

/-- The `Z` attribute of each class (for the Norton family, the property
`1/self.Y`; sympy returns `zoo` on division by zero, modelled by the
field convention `1/0 = 0` — the claims never read these junk values). -/
def Zval (s : K) : OnePortN K → K
  | .res r => r
  | .cond g => 1 / g
  | .ind l _ => l * s
  | .cap c _ => 1 / (c * s)
  | .vsrc _ => 0
  | .isrc _ => 1 / (0 : K)
  | .thev z _ => z
  | .nort y _ => 1 / y

/-- The `V` attribute (for the Norton family, the property `I/Y`). -/
def Vval (s : K) : OnePortN K → K
  | .res _ => 0
  | .cond g => 0 / g
  | .ind l i0 => -(l * i0)
  | .cap _ v0 => v0 / s
  | .vsrc v => v
  | .isrc i => i / (0 : K)
  | .thev _ v => v
  | .nort y i => i / y

/-- The result of `x.thevenin()`: the Norton family converts via
`Thevenin(self.Z, self.V)` (with `I.thevenin` using `1/_Y(0)`), the
Thevenin family returns itself, and `V.thevenin` rebuilds
`Thevenin(_Z(0), self.V)`. -/
def toThev (s : K) : OnePortN K → OnePortN K
  | .nort y i => .thev (1 / y) (i / y)
  | .cond g => .thev (1 / g) (0 / g)
  | .isrc i => .thev (1 / (0 : K)) (i / (0 : K))
  | .vsrc v => .thev 0 v
  | x => x

/-- The result of `x.norton()`: the Thevenin family converts via
`Norton(self.Y, _I(self.V/self.Z))` (with `V.norton` using `1/_Z(0)`),
and the Norton family returns itself. -/
def toNort (s : K) : OnePortN K → OnePortN K
  | .res r => .nort (1 / r) (0 / r)
  | .ind l i0 => .nort (1 / (l * s)) (-(l * i0) / (l * s))
  | .cap c v0 => .nort (c * s) (v0 / s / (1 / (c * s)))
  | .thev z v => .nort (1 / z) (v / z)
  | .vsrc v => .nort (1 / (0 : K)) (v / (0 : K))
  | .isrc i => .nort 0 i
  | x => x

/-- Whether the sympy test `x.Z == 0` succeeds: true exactly when the
impedance expression is literally zero.  (`1/g`, `1/(c*s)` and `1/Y`
become `zoo`, never `0`, when the denominator vanishes, and `s` is a
nonzero symbol so `l*s == 0` iff `l == 0`.) -/
def ZisZero : OnePortN K → Bool
  | .vsrc _ => true
  | .thev z _ => decide (z = 0)
  | .res r => decide (r = 0)
  | .ind l _ => decide (l = 0)
  | _ => false

/-- Body of `Thevenin.series` (lines 970-980), parameterised by the
receiver's impedance and voltage.  The guard `x.Y == 0` fires for the
`I` class (stored admittance `0`) and for a raw `Norton` whose
admittance is literally zero. -/
def theveninSeriesBody (s selfZ selfV : K) : OnePortN K → Except NetErr (OnePortN K)
  | .isrc _ => .error .currentInSeries
  | .nort y i =>
    if y = 0 then .error .currentInSeries
    else .ok (.thev (selfZ + 1 / y) (selfV + i / y))
  | x => .ok (.thev (selfZ + Zval s x) (selfV + Vval s x))

/-- The `Y` attribute of each class (for the Thevenin family, the
property `1/self.Z`; sympy cancels `1/(1/(C*s))` to `C*s`). -/
def Yattr (s : K) : OnePortN K → K
  | .res r => 1 / r
  | .cond g => g
  | .ind l _ => 1 / (l * s)
  | .cap c _ => c * s
  | .vsrc _ => 1 / (0 : K)
  | .isrc _ => 0
  | .thev z _ => 1 / z
  | .nort y _ => y

/-- The `I` attribute of each class (for the Thevenin family, the
property `self.V/self.Z`). -/
def Iattr (s : K) : OnePortN K → K
  | .res r => 0 / r
  | .cond _ => 0
  | .ind l i0 => -(l * i0) / (l * s)
  | .cap c v0 => v0 / s / (1 / (c * s))
  | .vsrc v => v / (0 : K)
  | .isrc i => i
  | .thev z v => v / z
  | .nort _ i => i

/-- Body of `Norton.parallel` (lines 898-908), parameterised by the
receiver's admittance and current: for the `(C, G, L, R, V, Thevenin)`
branch the guard `x.Z == 0` fires before converting `x` to Norton form;
the `(I, Norton)` branch combines unguarded. -/
def nortonParallelBody (s selfY selfI : K) : OnePortN K → Except NetErr (OnePortN K)
  | .isrc i => .ok (.nort (selfY + 0) (selfI + i))
  | .nort y i => .ok (.nort (selfY + y) (selfI + i))
  | x =>
    if ZisZero x then .error .voltageInParallel
    else .ok (.nort (selfY + Yattr s (toNort s x)) (selfI + Iattr s (toNort s x)))

/-- One-port series combination, dispatching on the receiver's runtime
class: `V.series` special-cases a second `V` (line 1178-1182, passing
the summed s-domain voltage back through the integrating constructor),
`I.series` always raises, the Thevenin family runs `Thevenin.series`
directly, and the Norton family converts to Thevenin, combines, and
converts back (line 893-895). -/
def seriesOP (s : K) : OnePortN K → OnePortN K → Except NetErr (OnePortN K)
  | .vsrc v, .vsrc v2 => .ok (.vsrc ((v + v2) / s))
  | .vsrc v, x => theveninSeriesBody s 0 v x
  | .isrc _, _ => .error .currentInSeries
  | .res r, x => theveninSeriesBody s r 0 x
  | .ind l i0, x => theveninSeriesBody s (l * s) (-(l * i0)) x
  | .cap c v0, x => theveninSeriesBody s (1 / (c * s)) (v0 / s) x
  | .thev z v, x => theveninSeriesBody s z v x
  | .cond g, x => (theveninSeriesBody s (1 / g) (0 / g) x).map (toNort s)
  | .nort y i, x => (theveninSeriesBody s (1 / y) (i / y) x).map (toNort s)

/-- One-port parallel combination: `I.parallel` special-cases a second
`I` (lines 1214-1218), `V.parallel` always raises (lines 1185-1187),
the Norton family runs `Norton.parallel` directly, and the Thevenin
family converts to Norton, combines, and converts back (line 983-985). -/
def parallelOP (s : K) : OnePortN K → OnePortN K → Except NetErr (OnePortN K)
  | .isrc i, .isrc i2 => .ok (.isrc ((i + i2) / s))
  | .isrc i, x => nortonParallelBody s 0 i x
  | .vsrc _, _ => .error .voltageInParallel
  | .res r, x => (nortonParallelBody s (1 / r) (0 / r) x).map (toThev s)
  | .ind l i0, x =>
    (nortonParallelBody s (1 / (l * s)) (-(l * i0) / (l * s)) x).map (toThev s)
  | .cap c v0, x =>
    (nortonParallelBody s (c * s) (v0 / s / (1 / (c * s))) x).map (toThev s)
  | .thev z v, x => (nortonParallelBody s (1 / z) (v / z) x).map (toThev s)
  | .cond g, x => nortonParallelBody s g 0 x
  | .nort y i, x => nortonParallelBody s y i x

/- ## Two-port tagged matrices and three-port heap model -/

variable {K : Type} [Field K] [DecidableEq K]

/- ## Two-port tagged matrices -/

inductive TPForm where
  | A | B | G | H | Y | Z
deriving DecidableEq

structure Mat2 (K : Type) where
  m11 : K
  m12 : K
  m21 : K
  m22 : K
deriving DecidableEq

def det2 (m : Mat2 K) : K := m.m11 * m.m22 - m.m12 * m.m21

def AMatrix_B (m : Mat2 K) : TPForm × Mat2 K :=
  (TPForm.B, ⟨m.m22 / det2 m, -m.m12 / det2 m, -m.m21 / det2 m, m.m11 / det2 m⟩)

def BMatrix_A (m : Mat2 K) : TPForm × Mat2 K :=
  (TPForm.A, ⟨m.m22 / det2 m, -m.m12 / det2 m, -m.m21 / det2 m, m.m11 / det2 m⟩)

def BMatrix_G (m : Mat2 K) : TPForm × Mat2 K :=
  (TPForm.H, ⟨-m.m21 / m.m22, -1 / m.m22, det2 m / m.m22, -m.m12 / m.m22⟩)

def BMatrix_Y (m : Mat2 K) : TPForm × Mat2 K :=
  (TPForm.Y, ⟨-m.m11 / m.m12, 1 / m.m12, det2 m / m.m12, -m.m22 / m.m12⟩)

def GMatrix_B (m : Mat2 K) : TPForm × Mat2 K :=
  (TPForm.A, ⟨-det2 m / m.m12, m.m22 / m.m12, m.m11 / m.m12, -1 / m.m12⟩)

def YMatrix_Z (m : Mat2 K) : TPForm × Mat2 K :=
  (TPForm.Z, ⟨m.m22 / det2 m, -m.m12 / det2 m, -m.m21 / det2 m, m.m11 / det2 m⟩)

def ZMatrix_Y (m : Mat2 K) : TPForm × Mat2 K :=
  (TPForm.Y, ⟨m.m22 / det2 m, -m.m12 / det2 m, -m.m21 / det2 m, m.m11 / det2 m⟩)

def seriesB (tz : K) : Mat2 K := ⟨1, -tz, 0, 1⟩

/- ## Three-port heap model -/

abbrev Vec3 (K : Type) := Fin 3 → K

abbrev Mat3 (K : Type) := Fin 3 → Fin 3 → K

def det3 (M : Mat3 K) : K :=
  M 0 0 * (M 1 1 * M 2 2 - M 1 2 * M 2 1)
    - M 0 1 * (M 1 0 * M 2 2 - M 1 2 * M 2 0)
    + M 0 2 * (M 1 0 * M 2 1 - M 1 1 * M 2 0)

def inv3 (M : Mat3 K) : Mat3 K := fun i j =>
  (M (j + 1) (i + 1) * M (j + 2) (i + 2) - M (j + 1) (i + 2) * M (j + 2) (i + 1)) / det3 M

def updM (M : Mat3 K) (i j : Fin 3) (v : K) : Mat3 K :=
  fun a b => if a = i ∧ b = j then v else M a b

def updV (w : Vec3 K) (i : Fin 3) (v : K) : Vec3 K :=
  fun a => if a = i then v else w a

inductive HObj (K : Type) where
  | mat : Mat3 K → HObj K
  | vec : Vec3 K → HObj K

abbrev Heap (K : Type) := List (HObj K)

def hget : Heap K → Nat → Option (HObj K)
  | [], _ => none
  | o :: _, 0 => some o
  | _ :: t, n + 1 => hget t n

def hset : Heap K → Nat → HObj K → Heap K
  | [], _, _ => []
  | _ :: t, 0, o => o :: t
  | a :: t, n + 1, o => a :: hset t n o

def getMat (h : Heap K) (r : Nat) : Mat3 K :=
  match hget h r with
  | some (HObj.mat m) => m
  | _ => fun _ _ => 0

def getVec (h : Heap K) (r : Nat) : Vec3 K :=
  match hget h r with
  | some (HObj.vec v) => v
  | _ => fun _ => 0

structure NP3 where
  zref : Nat
  vref : Nat
deriving DecidableEq

def npY (h : Heap K) (np : NP3) : Heap K × Nat :=
  (h ++ [HObj.mat (inv3 (getMat h np.zref))], h.length)

def npIsc (h : Heap K) (np : NP3) : Heap K × Nat :=
  let h1 := (npY h np).1
  let yr := (npY h np).2
  (h1 ++ [HObj.vec (fun m => getVec h1 np.vref m * getMat h1 yr m m)], h1.length)

def attachParallel (h : Heap K) (np : NP3) (ty ti : K) (p : Fin 3) : Heap K × NP3 :=
  let yr := (npY h np).2
  let h1 := (npY h np).1
  let h2 := hset h1 yr (HObj.mat (updM (getMat h1 yr) p p (getMat h1 yr p p + ty)))
  let iscr := (npIsc h2 np).2
  let h3 := (npIsc h2 np).1
  let h4 := hset h3 iscr (HObj.vec (updV (getVec h3 iscr) p (getVec h3 iscr p + ti)))
  let zr := h4.length
  let h5 := h4 ++ [HObj.mat (inv3 (getMat h4 yr))]
  let vr := h5.length
  let h6 := h5 ++ [HObj.vec (fun m => getVec h5 iscr m * getMat h5 zr m m)]
  (h6, ⟨zr, vr⟩)

def bridge3 (h : Heap K) (np : NP3) (tz ti : K) (p1 p2 : Fin 3) : Heap K × NP3 :=
  let Y2 := (BMatrix_Y (seriesB tz)).2
  let y3r := h.length
  let h1 := h ++ [HObj.mat (fun _ _ => 0)]
  let h2 := hset h1 y3r (HObj.mat (updM (getMat h1 y3r) p1 p1 Y2.m11))
  let h3 := hset h2 y3r (HObj.mat (updM (getMat h2 y3r) p2 p2 Y2.m22))
  let h4 := hset h3 y3r (HObj.mat (updM (getMat h3 y3r) p1 p2 Y2.m12))
  let h5 := hset h4 y3r (HObj.mat (updM (getMat h4 y3r) p2 p1 Y2.m21))
  let ysr := (npY h5 np).2
  let h6 := (npY h5 np).1
  let yr := h6.length
  let h7 := h6 ++ [HObj.mat (fun i j => getMat h6 ysr i j + getMat h6 y3r i j)]
  let iscr := (npIsc h7 np).2
  let h8 := (npIsc h7 np).1
  let h9 := hset h8 iscr (HObj.vec (updV (getVec h8 iscr) p1 (getVec h8 iscr p1 - ti)))
  let h10 := hset h9 iscr (HObj.vec (updV (getVec h9 iscr) p2 (getVec h9 iscr p2 + ti)))
  let zr1 := h10.length
  let h11 := h10 ++ [HObj.mat (inv3 (getMat h10 yr))]
  let vr := h11.length
  let h12 := h11 ++ [HObj.vec (fun m => getVec h11 iscr m * getMat h11 zr1 m m)]
  let zr2 := h12.length
  let h13 := h12 ++ [HObj.mat (inv3 (getMat h12 yr))]
  (h13, ⟨zr2, vr⟩)

def parallel3 (h : Heap K) (np x : NP3) : Heap K × NP3 :=
  let syr := (npY h np).2
  let h1 := (npY h np).1
  let xyr := (npY h1 x).2
  let h2 := (npY h1 x).1
  let yr := h2.length
  let h3 := h2 ++ [HObj.mat (fun i j => getMat h2 syr i j + getMat h2 xyr i j)]
  let sir := (npIsc h3 np).2
  let h4 := (npIsc h3 np).1
  let xir := (npIsc h4 x).2
  let h5 := (npIsc h4 x).1
  let iscr := h5.length
  let h6 := h5 ++ [HObj.vec (fun m => getVec h5 sir m + getVec h5 xir m)]
  let zr := h6.length
  let h7 := h6 ++ [HObj.mat (inv3 (getMat h6 yr))]
  let vr := h7.length
  let h8 := h7 ++ [HObj.vec (fun m => getVec h7 iscr m * getMat h7 zr m m)]
  (h8, ⟨zr, vr⟩)

/- ## Heap lemmas -/

def Extends (h h2 : Heap K) : Prop :=
  h.length ≤ h2.length ∧ ∀ i, i < h.length → hget h2 i = hget h i

/- normalisation lemmas for the operations -/

def wheap9 : Heap ℚ :=
  [HObj.mat (fun _ _ => 1), HObj.vec (fun _ => 1)]

def wnp9 : NP3 := ⟨0, 1⟩

def wheap10 : Heap ℚ :=
  [HObj.vec (fun _ => 2), HObj.mat (fun i j => if i = j then 2 else 0)]

def wnp10 : NP3 := ⟨1, 0⟩

/-! ## Theorems -/

theorem toPoly_nil : toPoly ([] : Cf K) = 0 := by simp [toPoly]

theorem toPoly_cons (a : K) (l : Cf K) : toPoly (a :: l) = C a + X * toPoly l := by
  simp [toPoly]

theorem toPoly_addC (l m : Cf K) : toPoly (addC l m) = toPoly l + toPoly m := by
  induction l generalizing m with
  | nil => simp [addC, toPoly]
  | cons a l ih =>
    cases m with
    | nil => simp [addC, toPoly]
    | cons b m =>
      simp only [addC, toPoly_cons, ih, C_add]
      ring

theorem toPoly_smulC (a : K) (l : Cf K) : toPoly (smulC a l) = C a * toPoly l := by
  induction l with
  | nil => simp [smulC, toPoly]
  | cons b l ih =>
    simp only [smulC, List.map, toPoly_cons, C_mul] at *
    rw [ih]
    ring

theorem toPoly_negC (l : Cf K) : toPoly (negC l) = -toPoly l := by
  induction l with
  | nil => simp [negC, toPoly]
  | cons b l ih =>
    simp only [negC, List.map, toPoly_cons] at *
    rw [ih]
    simp
    ring

theorem toPoly_subC (l m : Cf K) : toPoly (subC l m) = toPoly l - toPoly m := by
  rw [subC, toPoly_addC, toPoly_negC]
  ring

theorem toPoly_mulC (l m : Cf K) : toPoly (mulC l m) = toPoly l * toPoly m := by
  induction l with
  | nil => simp [mulC, toPoly]
  | cons a l ih =>
    simp only [mulC, toPoly_addC, toPoly_smulC, toPoly_cons, ih, map_zero]
    ring

theorem toPoly_powC (l : Cf K) (n : Nat) : toPoly (powC l n) = toPoly l ^ n := by
  induction n with
  | zero => simp [powC, toPoly]
  | succ n ih => simp [powC, toPoly_mulC, ih, pow_succ]; ring

theorem toPoly_xsubC (p : K) : toPoly (xsubC p) = X - C p := by
  simp [xsubC, toPoly]
  ring

theorem evalC_toPoly (l : Cf K) (x : K) : evalC l x = (toPoly l).eval x := by
  induction l with
  | nil => simp [evalC, toPoly]
  | cons a l ih =>
    simp only [evalC, List.foldr, toPoly_cons, eval_add, eval_C, eval_mul, eval_X]
    rw [← ih]
    rfl

theorem toPoly_derivAux (n : Nat) (l : Cf K) :
    toPoly (derivAux n l) = (n : K) • toPoly l + X * derivative (toPoly l) := by
  induction l generalizing n with
  | nil => simp [derivAux, toPoly]
  | cons a l ih =>
    simp only [derivAux, toPoly_cons, derivative_add, derivative_C, derivative_mul,
      derivative_X, ih]
    push_cast
    simp [smul_add, smul_smul, C_add, C_1]
    ring_nf
    simp [Algebra.smul_def]
    ring

theorem toPoly_derivC (l : Cf K) : toPoly (derivC l) = derivative (toPoly l) := by
  cases l with
  | nil => simp [derivC, toPoly]
  | cons a l =>
    simp only [derivC, toPoly_derivAux, toPoly_cons, derivative_add, derivative_C,
      derivative_mul, derivative_X]
    simp [Algebra.smul_def]

theorem toPoly_monomC (k : Nat) (c : K) : toPoly (monomC k c) = C c * X ^ k := by
  induction k with
  | zero => simp [monomC, toPoly]
  | succ k ih =>
    simp only [monomC, List.replicate, List.cons_append, toPoly_cons] at *
    rw [ih]
    simp [pow_succ]
    ring

theorem toPoly_normC (l : Cf K) : toPoly (normC l) = toPoly l := by
  induction l with
  | nil => rfl
  | cons a l ih =>
    simp only [normC]
    cases h : normC l with
    | nil =>
      rw [h] at ih
      by_cases ha : a = 0 <;>
        simp [ha, toPoly_cons, toPoly_nil, ← ih]
    | cons b m =>
      rw [h] at ih
      simp [toPoly_cons, ← ih]

theorem toPoly_eq_zero_of_normC_nil {l : Cf K} (h : normC l = []) : toPoly l = 0 := by
  rw [← toPoly_normC, h, toPoly_nil]

/-- Core structural fact about normalised coefficient lists: a nonempty
normal form denotes a nonzero polynomial whose `natDegree` is the length
minus one and whose leading coefficient is the last entry. -/
theorem normC_spec {l : Cf K} (h : normC l ≠ []) :
    toPoly l ≠ 0 ∧ (toPoly l).natDegree + 1 = (normC l).length ∧
      (toPoly l).leadingCoeff = (normC l).getLastD 0 := by
  induction l with
  | nil => exact absurd rfl h
  | cons a l ih =>
    by_cases hl : normC l = []
    · have hzero : toPoly l = 0 := toPoly_eq_zero_of_normC_nil hl
      have ha : a ≠ 0 := by
        intro ha
        apply h
        simp [normC, hl, ha]
      have hform : normC (a :: l) = [a] := by
        simp [normC, hl, ha]
      refine ⟨?_, ?_, ?_⟩
      · simp only [toPoly_cons, hzero, mul_zero, add_zero, ne_eq]
        exact fun h0 => ha (C_eq_zero.mp h0)
      · simp [toPoly_cons, hzero, hform]
      · simp [toPoly_cons, hzero, hform]
    · obtain ⟨hne, hdeg, hlead⟩ := ih hl
      have hXl : (X : Polynomial K) * toPoly l ≠ 0 := mul_ne_zero X_ne_zero hne
      have hdX : ((X : Polynomial K) * toPoly l).natDegree = (toPoly l).natDegree + 1 :=
        natDegree_X_mul hne
      have hdlt : (C a).degree < ((X : Polynomial K) * toPoly l).degree := by
        have h1 : (C a).degree ≤ 0 := degree_C_le
        have h2 : ((X : Polynomial K) * toPoly l).degree =
            (((toPoly l).natDegree + 1 : Nat) : WithBot Nat) := by
          rw [degree_eq_natDegree hXl, hdX]
        rw [h2]
        refine lt_of_le_of_lt h1 ?_
        exact_mod_cast Nat.succ_pos (toPoly l).natDegree
      have hdsum : (C a + X * toPoly l).degree = ((X : Polynomial K) * toPoly l).degree :=
        degree_add_eq_right_of_degree_lt hdlt
      have hsumne : (C a + X * toPoly l) ≠ 0 := by
        intro h0
        rw [h0, degree_zero] at hdsum
        exact hXl (degree_eq_bot.mp hdsum.symm)
      have hnatsum : (C a + X * toPoly l).natDegree = (toPoly l).natDegree + 1 := by
        have := hdsum
        rw [degree_eq_natDegree hsumne, degree_eq_natDegree hXl, hdX] at this
        exact_mod_cast this
      have hleadsum : (C a + X * toPoly l).leadingCoeff = (toPoly l).leadingCoeff := by
        rw [leadingCoeff_add_of_degree_lt hdlt, leadingCoeff_mul, leadingCoeff_X, one_mul]
      obtain ⟨b, m, hbm⟩ : ∃ b m, normC l = b :: m := by
        cases hnl : normC l with
        | nil => exact absurd hnl hl
        | cons b m => exact ⟨b, m, rfl⟩
      have hform : normC (a :: l) = a :: b :: m := by
        simp [normC, hbm]
      refine ⟨?_, ?_, ?_⟩
      · rw [toPoly_cons]; exact hsumne
      · rw [toPoly_cons, hnatsum, hform]
        rw [hbm] at hdeg
        simp at hdeg ⊢
        omega
      · rw [toPoly_cons, hleadsum, hform, hlead, hbm]
        simp

theorem toPoly_eq_zero_iff_normC {l : Cf K} : toPoly l = 0 ↔ normC l = [] := by
  constructor
  · intro h
    by_contra hne
    exact (normC_spec hne).1 h
  · exact toPoly_eq_zero_of_normC_nil

theorem normC_length_eq {l : Cf K} (h : toPoly l ≠ 0) :
    (normC l).length = (toPoly l).natDegree + 1 := by
  have hne : normC l ≠ [] := fun hz => h (toPoly_eq_zero_of_normC_nil hz)
  exact ((normC_spec hne).2.1).symm

theorem lcC_eq {l : Cf K} (h : toPoly l ≠ 0) : lcC l = (toPoly l).leadingCoeff := by
  have hne : normC l ≠ [] := fun hz => h (toPoly_eq_zero_of_normC_nil hz)
  exact ((normC_spec hne).2.2).symm

theorem getLastD_cons_cons (a b : K) (m : List K) (d : K) :
    (a :: b :: m).getLastD d = (b :: m).getLastD d := rfl

theorem normC_of_getLastD_ne {l : Cf K} (h : l ≠ []) (h0 : l.getLastD 0 ≠ 0) :
    normC l = l := by
  induction l with
  | nil => exact absurd rfl h
  | cons a l ih =>
    cases l with
    | nil =>
      have ha : a ≠ 0 := by simpa using h0
      simp [normC, ha]
    | cons b m =>
      have hl : normC (b :: m) = b :: m := by
        apply ih (List.cons_ne_nil b m)
        rw [← getLastD_cons_cons a b m 0]
        exact h0
      have e : normC (a :: b :: m) =
          match normC (b :: m) with
          | [] => if a = 0 then [] else [a]
          | c :: t => a :: c :: t := rfl
      rw [e, hl]

theorem normC_idem (l : Cf K) : normC (normC l) = normC l := by
  cases h : normC l with
  | nil => rfl
  | cons b m =>
    have hne : normC l ≠ [] := by rw [h]; exact List.cons_ne_nil b m
    obtain ⟨h0, _, hlc⟩ := normC_spec hne
    have hlast : (normC l).getLastD 0 ≠ 0 := by
      rw [← hlc]
      exact leadingCoeff_ne_zero.mpr h0
    rw [h] at hlast
    rw [← h] at hlast ⊢
    exact normC_of_getLastD_ne hne hlast

theorem dlen_lt_of_degree_lt {l m : Cf K} (hm : toPoly m ≠ 0)
    (h : (toPoly l).degree < (toPoly m).degree) : dlen l < dlen m := by
  by_cases hl : toPoly l = 0
  · have h0 : dlen l = 0 := by simp [dlen, toPoly_eq_zero_iff_normC.mp hl]
    have hmlen : dlen m = (toPoly m).natDegree + 1 := normC_length_eq hm
    omega
  · have h1 : dlen l = (toPoly l).natDegree + 1 := normC_length_eq hl
    have h2 : dlen m = (toPoly m).natDegree + 1 := normC_length_eq hm
    have := natDegree_lt_natDegree hl h
    omega

theorem divModAux_spec (fuel : Nat) (N D : Cf K) (hD : normC D = D) (hDne : D ≠ [])
    (hfuel : dlen N < fuel) :
    toPoly N = toPoly (divModAux fuel N D).1 * toPoly D + toPoly (divModAux fuel N D).2 ∧
      (toPoly (divModAux fuel N D).2).degree < (toPoly D).degree := by
  have hDnorm : normC D ≠ [] := by rw [hD]; exact hDne
  obtain ⟨hD0, hDdeg, hDlc⟩ := normC_spec hDnorm
  induction fuel generalizing N with
  | zero => omega
  | succ fuel ih =>
    simp only [divModAux]
    by_cases hlt : (normC N).length < D.length
    · simp only [if_pos hlt]
      constructor
      · simp [toPoly_nil]
      · by_cases hN : toPoly N = 0
        · rw [hN, degree_zero]
          exact bot_lt_iff_ne_bot.mpr (fun hb => hD0 (degree_eq_bot.mp hb))
        · apply degree_lt_degree
          have h1 := normC_length_eq hN
          rw [hD] at hDdeg
          omega
    · simp only [if_neg hlt]
      push_neg at hlt
      have hNnorm : normC N ≠ [] := by
        intro hz
        rw [hz] at hlt
        simp at hlt
        exact hDne hlt
      obtain ⟨hN0, hNdeg, hNlc⟩ := normC_spec hNnorm
      rw [hD] at hDdeg hDlc
      set natN := (toPoly N).natDegree
      set natD := (toPoly D).natDegree
      set k := (normC N).length - D.length with hk
      set c := (normC N).getLastD 0 / D.getLastD 0 with hc
      have hck : k = natN - natD := by omega
      have hlcN : (toPoly N).leadingCoeff ≠ 0 := leadingCoeff_ne_zero.mpr hN0
      have hlcD : (toPoly D).leadingCoeff ≠ 0 := leadingCoeff_ne_zero.mpr hD0
      have hcne : c ≠ 0 := by
        rw [hc, ← hNlc, ← hDlc]
        exact div_ne_zero hlcN hlcD
      have hdegle : natD ≤ natN := by omega
      set T := mulC (monomC k c) D with hT
      have hTpoly : toPoly T = C c * (X ^ k * toPoly D) := by
        rw [hT, toPoly_mulC, toPoly_monomC, mul_assoc]
      have hTne : toPoly T ≠ 0 := by
        rw [hTpoly]
        exact mul_ne_zero (fun h => hcne (C_eq_zero.mp h))
          (mul_ne_zero (pow_ne_zero _ X_ne_zero) hD0)
      have hTdeg : (toPoly T).natDegree = natN := by
        rw [hTpoly, natDegree_C_mul hcne, natDegree_X_pow_mul k hD0, hck]
        omega
      have hTlc : (toPoly T).leadingCoeff = (toPoly N).leadingCoeff := by
        rw [hTpoly, leadingCoeff_mul, leadingCoeff_mul, leadingCoeff_X_pow,
          leadingCoeff_C, one_mul, hc, ← hNlc, ← hDlc]
        field_simp
      have hdegeq : (toPoly N).degree = (toPoly T).degree := by
        rw [degree_eq_natDegree hN0, degree_eq_natDegree hTne, hTdeg]
      have hsub : (toPoly (subC N T)).degree < (toPoly N).degree := by
        rw [toPoly_subC]
        exact degree_sub_lt hdegeq hN0 hTlc.symm
      have hdlen : dlen (subC N T) < dlen N := dlen_lt_of_degree_lt hN0 hsub
      have hfuel2 : dlen (subC N T) < fuel := by
        have : dlen N < fuel + 1 := hfuel
        omega
      obtain ⟨ihq, ihr⟩ := ih (subC N T) hfuel2
      constructor
      · rw [toPoly_addC, add_mul]
        have hmon : toPoly (monomC k c) * toPoly D = toPoly T := by
          rw [hTpoly, toPoly_monomC]
          ring
        rw [hmon, toPoly_subC] at *
        linear_combination ihq
      · exact ihr

theorem divModC_spec (N D : Cf K) (hD : toPoly D ≠ 0) :
    toPoly N = toPoly (divModC N D).1 * toPoly D + toPoly (divModC N D).2 ∧
      (toPoly (divModC N D).2).degree < (toPoly D).degree := by
  have hDn : normC D ≠ [] := fun h => hD (toPoly_eq_zero_of_normC_nil h)
  simp only [divModC, if_neg hDn]
  have h1 : normC (normC D) = normC D := normC_idem D
  have h2 := divModAux_spec (dlen N + 1) N (normC D) h1 hDn (by omega)
  rwa [toPoly_normC] at h2

theorem quotXsub_exact {A : Cf K} {p : K} (h : (toPoly A).eval p = 0) :
    toPoly A = toPoly (quotXsub A p) * (X - C p) := by
  have hX : toPoly (xsubC p) ≠ 0 := by
    rw [toPoly_xsubC]
    exact X_sub_C_ne_zero p
  obtain ⟨heq, hdeg⟩ := divModC_spec A (xsubC p) hX
  rw [toPoly_xsubC] at heq hdeg
  set r := toPoly (divModC A (xsubC p)).2 with hr
  have hrC : r = C (r.coeff 0) := by
    apply eq_C_of_natDegree_le_zero
    by_cases h0 : r = 0
    · simp [h0]
    · rw [degree_X_sub_C, degree_eq_natDegree h0] at hdeg
      have h1 : r.natDegree < 1 := by exact_mod_cast hdeg
      omega
  have hr0 : r.coeff 0 = 0 := by
    have := congrArg (fun q => Polynomial.eval p q) heq
    simp only [eval_add, eval_mul, eval_sub, eval_X, eval_C, sub_self, mul_zero, zero_add] at this
    rw [h] at this
    rw [hrC] at this
    simpa using this.symm
  rw [heq, hrC, hr0, map_zero, add_zero]
  rfl

theorem limitAux_sound (fuel : Nat) (A B : Cf K) (Ar Br : Polynomial K) (p : K)
    (hB : toPoly B ≠ 0) (hfuel : dlen B < fuel)
    (hBr : Br.eval p ≠ 0)
    (hequiv : toPoly A * Br = Ar * toPoly B) :
    limitAux fuel A B p = Ar.eval p / Br.eval p := by
  induction fuel generalizing A B with
  | zero => omega
  | succ fuel ih =>
    simp only [limitAux]
    rw [evalC_toPoly, evalC_toPoly]
    by_cases hBp : (toPoly B).eval p = 0
    · have heval := congrArg (fun q => Polynomial.eval p q) hequiv
      simp only [eval_mul] at heval
      rw [hBp, mul_zero] at heval
      have hAp : (toPoly A).eval p = 0 :=
        (mul_eq_zero.mp heval).resolve_right hBr
      simp only [if_pos hBp, if_pos hAp]
      have hAfac := quotXsub_exact hAp
      have hBfac := quotXsub_exact hBp
      have hQB : toPoly (quotXsub B p) ≠ 0 := by
        intro h0
        rw [hBfac, h0, zero_mul] at hB
        exact hB rfl
      have hequiv2 : toPoly (quotXsub A p) * Br =
          Ar * toPoly (quotXsub B p) := by
        have hc : (toPoly (quotXsub A p) * Br) * (X - C p) =
            (Ar * toPoly (quotXsub B p)) * (X - C p) := by
          calc (toPoly (quotXsub A p) * Br) * (X - C p)
              = toPoly A * Br := by rw [hAfac]; ring
            _ = Ar * toPoly B := hequiv
            _ = (Ar * toPoly (quotXsub B p)) * (X - C p) := by rw [hBfac]; ring
        exact mul_right_cancel₀ (X_sub_C_ne_zero p) hc
      have hdlt : dlen (quotXsub B p) < dlen B := by
        apply dlen_lt_of_degree_lt hB
        rw [hBfac, degree_mul, degree_X_sub_C, degree_eq_natDegree hQB]
        have : ((toPoly (quotXsub B p)).natDegree : WithBot Nat) <
            ((toPoly (quotXsub B p)).natDegree : WithBot Nat) + 1 := by
          exact_mod_cast Nat.lt_succ_self _
        exact this
      exact ih (quotXsub A p) (quotXsub B p) hQB (by omega) hequiv2
    · simp only [if_neg hBp]
      have heval := congrArg (fun q => Polynomial.eval p q) hequiv
      simp only [eval_mul] at heval
      rw [div_eq_div_iff hBp hBr]
      linear_combination heval

theorem limitAtC_sound (A B : Cf K) (Ar Br : Polynomial K) (p : K)
    (hB : toPoly B ≠ 0) (hBr : Br.eval p ≠ 0)
    (hequiv : toPoly A * Br = Ar * toPoly B) :
    limitAtC A B p = Ar.eval p / Br.eval p :=
  limitAux_sound (dlen B + 1) A B Ar Br p hB (by omega) hBr hequiv

theorem toPolyP_pderivC (q : RatP K) : toPolyP (pderivC q) = pderivP (toPolyP q) := by
  simp only [toPolyP, pderivC, pderivP, toPoly_subC, toPoly_mulC, toPoly_derivC]

theorem toPolyP_pderivC_iter (q : RatP K) (j : Nat) :
    toPolyP (pderivC^[j] q) = pderivP^[j] (toPolyP q) := by
  induction j generalizing q with
  | zero => rfl
  | succ j ih =>
    rw [Function.iterate_succ_apply, Function.iterate_succ_apply, ← toPolyP_pderivC]
    exact ih (pderivC q)

theorem pderivP_den (A B : Polynomial K) (j : Nat) :
    (pderivP^[j] (A, B)).2 = B ^ (2 ^ j) := by
  induction j generalizing A B with
  | zero => simp
  | succ j ih =>
    rw [Function.iterate_succ_apply, pderivP]
    show (pderivP^[j] (_, B * B)).2 = _
    rw [ih]
    rw [← pow_two, ← pow_mul]
    ring_nf

/-- The pair derivative is well defined on rational functions: it maps
cross-multiplicatively equal pairs to cross-multiplicatively equal
pairs. -/
theorem pderivP_respects {A₁ B₁ A₂ B₂ : Polynomial K}
    (h : A₁ * B₂ = A₂ * B₁) :
    (pderivP (A₁, B₁)).1 * (pderivP (A₂, B₂)).2 =
      (pderivP (A₂, B₂)).1 * (pderivP (A₁, B₁)).2 := by
  have hd := congrArg (fun q => derivative (R := K) q) h
  simp only [derivative_mul] at hd
  simp only [pderivP]
  linear_combination (B₁ * B₂) * hd - (derivative B₁ * B₂ + B₁ * derivative B₂) * h

theorem pderivP_respects_iter {A₁ B₁ A₂ B₂ : Polynomial K}
    (h : A₁ * B₂ = A₂ * B₁) (j : Nat) :
    (pderivP^[j] (A₁, B₁)).1 * (pderivP^[j] (A₂, B₂)).2 =
      (pderivP^[j] (A₂, B₂)).1 * (pderivP^[j] (A₁, B₁)).2 := by
  induction j generalizing A₁ B₁ A₂ B₂ with
  | zero => simpa using h
  | succ j ih =>
    rw [Function.iterate_succ_apply, Function.iterate_succ_apply]
    have h1 := pderivP_respects h
    have e1 : pderivP (A₁, B₁) = ((pderivP (A₁, B₁)).1, (pderivP (A₁, B₁)).2) := rfl
    have e2 : pderivP (A₂, B₂) = ((pderivP (A₂, B₂)).1, (pderivP (A₂, B₂)).2) := rfl
    rw [e1, e2]
    exact ih h1

theorem pderivP_num_add (A₁ A₂ B : Polynomial K) (j : Nat) :
    (pderivP^[j] (A₁ + A₂, B)).1 = (pderivP^[j] (A₁, B)).1 + (pderivP^[j] (A₂, B)).1 := by
  induction j generalizing A₁ A₂ B with
  | zero => simp
  | succ j ih =>
    rw [Function.iterate_succ_apply, Function.iterate_succ_apply, Function.iterate_succ_apply]
    have e : pderivP (A₁ + A₂, B) =
        ((pderivP (A₁, B)).1 + (pderivP (A₂, B)).1, B * B) := by
      simp only [pderivP, derivative_add]
      exact Prod.ext (by ring) rfl
    rw [e]
    have e1 : pderivP (A₁, B) = ((pderivP (A₁, B)).1, B * B) := rfl
    have e2 : pderivP (A₂, B) = ((pderivP (A₂, B)).1, B * B) := rfl
    rw [e1, e2]
    exact ih _ _ _

/-- The iterated pair derivative of a pair whose numerator is a multiple
of `(x - p)^m` keeps a factor `(x - p)^(m - j)` in the numerator. -/
theorem pderivP_num_pow_dvd (p : K) :
    ∀ (j m : Nat), j ≤ m → ∀ (S B : Polynomial K),
      (X - C p) ^ (m - j) ∣ (pderivP^[j] ((X - C p) ^ m * S, B)).1 := by
  intro j
  induction j with
  | zero => intro m _ S B; simpa using Dvd.intro S rfl
  | succ j ih =>
    intro m hjm S B
    obtain ⟨m', rfl⟩ : ∃ m', m = m' + 1 := ⟨m - 1, by omega⟩
    rw [Function.iterate_succ_apply]
    have e : pderivP ((X - C p) ^ (m' + 1) * S, B) =
        ((X - C p) ^ m' *
          (C ((m' : K) + 1) * S * B + (X - C p) * (derivative S * B - S * derivative B)),
          B * B) := by
      simp only [pderivP]
      refine Prod.ext ?_ rfl
      show derivative ((X - C p) ^ (m' + 1) * S) * B -
          (X - C p) ^ (m' + 1) * S * derivative B = _
      rw [derivative_mul, derivative_pow, derivative_X_sub_C]
      push_cast
      ring
    rw [e]
    have h2 := ih m' (by omega)
      (C ((m' : K) + 1) * S * B + (X - C p) * (derivative S * B - S * derivative B)) (B * B)
    have : m' + 1 - (j + 1) = m' - j := by omega
    rw [this]
    exact h2

theorem pderivP_one (P : Polynomial K) (j : Nat) :
    pderivP^[j] (P, 1) = (derivative^[j] P, 1) := by
  induction j generalizing P with
  | zero => simp
  | succ j ih =>
    have e : pderivP (P, (1 : Polynomial K)) = (derivative P, 1) := by
      simp [pderivP]
    rw [Function.iterate_succ_apply, e, ih, ← Function.iterate_succ_apply]

theorem ratDerivVal_congr (A B A' B' : Polynomial K) (p : K) (j : Nat)
    (h : A * B' = A' * B) (hB : B.eval p ≠ 0) (hB' : B'.eval p ≠ 0) :
    ratDerivVal A B p j = ratDerivVal A' B' p j := by
  have hrel := pderivP_respects_iter h j
  have heval := congrArg (fun q => Polynomial.eval p q) hrel
  simp only [eval_mul] at heval
  have hden : ((pderivP^[j] (A, B)).2).eval p ≠ 0 := by
    rw [pderivP_den, eval_pow]
    exact pow_ne_zero _ hB
  have hden' : ((pderivP^[j] (A', B')).2).eval p ≠ 0 := by
    rw [pderivP_den, eval_pow]
    exact pow_ne_zero _ hB'
  rw [ratDerivVal, ratDerivVal, div_eq_div_iff hden hden']
  linear_combination heval

theorem ratDerivVal_add (A₁ A₂ B : Polynomial K) (p : K) (j : Nat) :
    ratDerivVal (A₁ + A₂) B p j = ratDerivVal A₁ B p j + ratDerivVal A₂ B p j := by
  simp only [ratDerivVal, pderivP_num_add, pderivP_den, eval_add]
  rw [add_div]

theorem ratDerivVal_poly (P B : Polynomial K) (p : K) (j : Nat) (hB : B.eval p ≠ 0) :
    ratDerivVal (B * P) B p j = (derivative^[j] P).eval p := by
  have h : (B * P) * 1 = P * B := by ring
  rw [ratDerivVal_congr (B * P) B P 1 p j h hB (by simp)]
  rw [ratDerivVal, pderivP_one]
  simp

theorem ratDerivVal_highorder (S B : Polynomial K) (p : K) (m j : Nat) (hjm : j < m) :
    ratDerivVal ((X - C p) ^ m * S) B p j = 0 := by
  obtain ⟨T, hT⟩ := pderivP_num_pow_dvd p j m (by omega) S B
  rw [ratDerivVal, hT]
  have : ((X - C p) ^ (m - j) * T).eval p = 0 := by
    rw [eval_mul, eval_pow, eval_sub, eval_X, eval_C, sub_self,
      zero_pow (by omega : m - j ≠ 0), zero_mul]
  rw [this, zero_div]

/-- Local decomposition at `p`: any `A` splits as `B * P + (x-p)^m * S`
with `deg P < m`, provided `B` does not vanish at `p`. -/
theorem exists_local_decomp (A B : Polynomial K) (p : K) (hB : B.eval p ≠ 0) :
    ∀ m : Nat, ∃ P S : Polynomial K, A = B * P + (X - C p) ^ m * S ∧
      P.degree < (m : WithBot Nat) := by
  intro m
  induction m with
  | zero =>
    exact ⟨0, A, by simp, by simpa using WithBot.bot_lt_coe 0⟩
  | succ m ih =>
    obtain ⟨P, S, hA, hdeg⟩ := ih
    set a := S.eval p / B.eval p with ha
    have hroot : (S - C a * B).eval p = 0 := by
      simp only [eval_sub, eval_mul, eval_C, ha]
      field_simp
    obtain ⟨S', hS'⟩ := dvd_iff_isRoot.mpr hroot
    refine ⟨P + C a * (X - C p) ^ m, S', ?_, ?_⟩
    · have hS : S = C a * B + (X - C p) * S' := by
        rw [← hS']; ring
      rw [hA, hS]
      ring
    · apply lt_of_le_of_lt (degree_add_le _ _)
      apply max_lt
      · exact lt_of_lt_of_le hdeg (by exact_mod_cast Nat.le_succ m)
      · apply lt_of_le_of_lt (degree_mul_le _ _)
        have h1 : (C a).degree ≤ 0 := degree_C_le
        have h2 : ((X - C p) ^ m : Polynomial K).degree = (m : WithBot Nat) := by
          rw [degree_pow, degree_X_sub_C]
          simp
        rw [h2]
        calc (C a).degree + (m : WithBot Nat) ≤ 0 + (m : WithBot Nat) := by
              exact add_le_add_right h1 _
          _ = (m : WithBot Nat) := by rw [zero_add]
          _ < ((m + 1 : Nat) : WithBot Nat) := by exact_mod_cast Nat.lt_succ_self m

/-- Taylor expansion of the rational function `A/B` at a regular point
`p`, to order `m`, with coefficients given by the quotient-rule
derivatives divided by factorials (the formulas the spec states for the
repeated-pole residues). -/
theorem taylor_decomp [CharZero K] (A B : Polynomial K) (p : K) (m : Nat)
    (hB : B.eval p ≠ 0) :
    ∃ S, A = B * (∑ j ∈ Finset.range m,
        C (ratDerivVal A B p j / (j.factorial : K)) * (X - C p) ^ j) +
      (X - C p) ^ m * S := by
  obtain ⟨P, S, hA, hdegP⟩ := exists_local_decomp A B p hB m
  refine ⟨S, ?_⟩
  have hval : ∀ j < m, ratDerivVal A B p j = (derivative^[j] P).eval p := by
    intro j hj
    rw [hA, ratDerivVal_add, ratDerivVal_poly _ _ _ _ hB,
      ratDerivVal_highorder _ _ _ _ _ hj, add_zero]
  have hder : ∀ j : Nat, (derivative^[j] P).eval p =
      (j.factorial : K) * (taylor p P).coeff j := by
    intro j
    rw [taylor_coeff]
    have h1 := congrFun (factorial_smul_hasseDeriv (R := K) (k := j)) P
    simp only [LinearMap.smul_apply] at h1
    rw [← h1]
    simp
  have hsum : (∑ j ∈ Finset.range m,
      C (ratDerivVal A B p j / (j.factorial : K)) * (X - C p) ^ j) = P := by
    rcases Nat.eq_zero_or_pos m with hm | hm
    · subst hm
      have hP0 : P = 0 := by
        by_contra hP
        rw [degree_eq_natDegree hP] at hdegP
        have : P.natDegree < 0 := by exact_mod_cast hdegP
        omega
      simp [hP0]
    · have hnd : (taylor p P).natDegree < m := by
        rw [natDegree_taylor]
        by_cases hP : P = 0
        · simp [hP]; omega
        · rw [degree_eq_natDegree hP] at hdegP
          exact_mod_cast hdegP
      have hPsum : ∑ j ∈ Finset.range m, C ((taylor p P).coeff j) * (X - C p) ^ j = P := by
        have h2 := sum_over_range' (taylor p P)
          (f := fun i a => C a * (X - C p) ^ i) (fun n => by simp) m hnd
        rw [← h2, sum_taylor_eq]
      rw [← hPsum]
      apply Finset.sum_congr rfl
      intro j hj
      rw [hval j (Finset.mem_range.mp hj), hder j]
      have hfac : (j.factorial : K) ≠ 0 :=
        Nat.cast_ne_zero.mpr (Nat.factorial_ne_zero j)
      rw [mul_div_cancel_left₀ _ hfac]
  rw [hsum]
  exact hA

theorem toPoly_prodRootsC (P : RootData K) : toPoly (prodRootsC P) = mprod P := by
  induction P with
  | nil => simp [prodRootsC, mprod, toPoly]
  | cons pr rest ih =>
    simp only [prodRootsC, mprod, List.map, List.prod_cons, List.foldr] at *
    rw [toPoly_mulC, ih, toPoly_powC, toPoly_xsubC]

theorem FactorHyp.toPoly_eq {D : Cf K} {P : RootData K} {c : K}
    (h : FactorHyp D P c) : toPoly D = C c * mprod P := by
  have h1 := congrArg (toPoly (K := K)) h.1
  rw [toPoly_normC, toPoly_normC, toPoly_smulC, toPoly_prodRootsC] at h1
  exact h1

theorem mprod_eq_prod_fin (P : RootData K) :
    mprod P = ∏ i : Fin P.length, (X - C (P.get i).1) ^ (P.get i).2 := by
  rw [mprod]
  conv_lhs => rw [← List.ofFn_get P, List.map_ofFn]
  rw [List.prod_ofFn]
  rfl

theorem get_fst_ne {P : RootData K} (hdist : P.Pairwise (fun a b => a.1 ≠ b.1))
    {i j : Fin P.length} (h : i ≠ j) : (P.get i).1 ≠ (P.get j).1 := by
  rcases lt_or_gt_of_ne h with hlt | hgt
  · exact List.pairwise_iff_get.mp hdist i j hlt
  · exact (List.pairwise_iff_get.mp hdist j i hgt).symm

theorem polesD_eval_ne {P : RootData K} {c : K} (hc : c ≠ 0)
    (hdist : P.Pairwise (fun a b => a.1 ≠ b.1)) (i : Fin P.length) :
    (polesD P c i).eval (P.get i).1 ≠ 0 := by
  unfold polesD
  rw [eval_mul, eval_C, eval_prod]
  apply mul_ne_zero hc
  rw [Finset.prod_ne_zero_iff]
  intro l hl
  rw [eval_pow, eval_sub, eval_X, eval_C]
  exact pow_ne_zero _ (sub_ne_zero_of_ne (get_fst_ne hdist (Finset.mem_erase.mp hl).1.symm))

theorem polesD_mul_own (P : RootData K) (c : K) (i : Fin P.length) :
    polesD P c i * (X - C (P.get i).1) ^ (P.get i).2 = C c * mprod P := by
  rw [polesD, mprod_eq_prod_fin, mul_assoc]
  congr 1
  exact Finset.prod_erase_mul _ _ (Finset.mem_univ i)

theorem polesPsum_degree_le (Mh : Polynomial K) (P : RootData K) (c : K)
    (i : Fin P.length) (hm : 1 ≤ (P.get i).2) :
    (polesPsum Mh P c i).degree ≤ (((P.get i).2 - 1 : Nat) : WithBot Nat) := by
  apply le_trans (degree_sum_le _ _)
  apply Finset.sup_le
  intro j hj
  apply le_trans (degree_mul_le _ _)
  have h1 : (C (ratDerivVal Mh (polesD P c i) (P.get i).1 j / (j.factorial : K))).degree ≤ 0 :=
    degree_C_le
  have h2 : ((X - C (P.get i).1) ^ j : Polynomial K).degree = (j : WithBot Nat) := by
    rw [degree_pow, degree_X_sub_C]
    simp
  calc _ ≤ 0 + ((X - C (P.get i).1) ^ j : Polynomial K).degree := add_le_add_right h1 _
    _ = (j : WithBot Nat) := by rw [zero_add, h2]
    _ ≤ (((P.get i).2 - 1 : Nat) : WithBot Nat) := by
        have := Finset.mem_range.mp hj
        exact_mod_cast Nat.le_sub_one_of_lt this

/-- The partial fraction polynomial identity: for a strictly proper `M`
over the factored denominator, `M` equals the sum over poles of the pole
denominator times the local Taylor polynomial built from the
quotient-rule derivative values. -/
theorem pf_polyidentity [CharZero K] (M D : Cf K) (P : RootData K) (c : K)
    (hfac : toPoly D = C c * mprod P) (hc : c ≠ 0)
    (hdist : P.Pairwise (fun a b => a.1 ≠ b.1)) (hmult : ∀ pr ∈ P, 1 ≤ pr.2)
    (hdeg : (toPoly M).degree < (toPoly D).degree) :
    toPoly M = ∑ i : Fin P.length, polesD P c i * polesPsum (toPoly M) P c i := by
  set Mh := toPoly M with hMh
  set T := ∑ i : Fin P.length, polesD P c i * polesPsum Mh P c i with hT
  have hsub : Mh - T = 0 → Mh = T := fun h => sub_eq_zero.mp h
  apply hsub
  have hmulti : ∀ i : Fin P.length, 1 ≤ (P.get i).2 := fun i =>
    hmult (P.get i) (List.get_mem P i.1 i.2)
  -- each pole's factor divides Mh - T
  have hdvd : ∀ i : Fin P.length, (X - C (P.get i).1) ^ (P.get i).2 ∣ (Mh - T) := by
    intro i
    obtain ⟨S, hS⟩ := taylor_decomp Mh (polesD P c i) (P.get i).1 (P.get i).2
      (polesD_eval_ne hc hdist i)
    have hTi : T = polesD P c i * polesPsum Mh P c i +
        ∑ l ∈ Finset.univ.erase i, polesD P c l * polesPsum Mh P c l :=
      (Finset.add_sum_erase _ _ (Finset.mem_univ i)).symm
    have hS' : Mh = polesD P c i * polesPsum Mh P c i +
        (X - C (P.get i).1) ^ (P.get i).2 * S := by
      rw [polesPsum]
      exact hS
    have h1 : Mh - T = (X - C (P.get i).1) ^ (P.get i).2 * S -
        ∑ l ∈ Finset.univ.erase i, polesD P c l * polesPsum Mh P c l := by
      rw [hTi]
      linear_combination hS'
    rw [h1]
    apply dvd_sub
    · exact Dvd.intro S rfl
    · apply Finset.dvd_sum
      intro l hl
      have hli : l ≠ i := (Finset.mem_erase.mp hl).1
      have hd : (X - C (P.get i).1) ^ (P.get i).2 ∣ polesD P c l := by
        apply Dvd.dvd.mul_left
        exact Finset.dvd_prod_of_mem _ (Finset.mem_erase.mpr ⟨hli.symm, Finset.mem_univ i⟩)
      exact hd.mul_right _
  -- the full product divides Mh - T
  have hprod_dvd : mprod P ∣ Mh - T := by
    rw [mprod_eq_prod_fin]
    apply Finset.prod_dvd_of_coprime
    · intro i _ j _ hij
      exact (isCoprime_X_sub_C_of_isUnit_sub
        (isUnit_iff_ne_zero.mpr (sub_ne_zero_of_ne (get_fst_ne hdist hij)))).pow
    · intro i _
      exact hdvd i
  -- degree comparison
  have hmd : (mprod P).degree = (toPoly D).degree := by
    rw [hfac, degree_mul, degree_C hc, zero_add]
  have hdegDi : ∀ i : Fin P.length,
      (polesD P c i).degree ≤ ((∑ l ∈ Finset.univ.erase i, (P.get l).2 : Nat) : WithBot Nat) := by
    intro i
    unfold polesD
    apply le_trans (degree_mul_le _ _)
    have h1 : (C c : Polynomial K).degree ≤ 0 := degree_C_le
    have h2 : (∏ l ∈ Finset.univ.erase i, ((X - C (P.get l).1) ^ (P.get l).2 : Polynomial K)).degree
        ≤ ((∑ l ∈ Finset.univ.erase i, (P.get l).2 : Nat) : WithBot Nat) := by
      apply le_trans (degree_prod_le _ _)
      rw [Nat.cast_sum]
      apply Finset.sum_le_sum
      intro l _
      rw [degree_pow, degree_X_sub_C]
      simp
    calc _ ≤ 0 + (∏ l ∈ Finset.univ.erase i,
          ((X - C (P.get l).1) ^ (P.get l).2 : Polynomial K)).degree := add_le_add_right h1 _
      _ ≤ _ := by rw [zero_add]; exact h2
  have hsumdeg : (mprod P).degree =
      ((∑ l : Fin P.length, (P.get l).2 : Nat) : WithBot Nat) := by
    rw [mprod_eq_prod_fin, degree_prod, Nat.cast_sum]
    apply Finset.sum_congr rfl
    intro l _
    rw [degree_pow, degree_X_sub_C]
    simp
  have hdegT : T.degree < (mprod P).degree := by
    rw [hT]
    apply lt_of_le_of_lt (degree_sum_le _ _)
    rw [Finset.sup_lt_iff]
    · intro i _
      apply lt_of_le_of_lt (degree_mul_le _ _)
      apply lt_of_le_of_lt (add_le_add (hdegDi i) (polesPsum_degree_le Mh P c i (hmulti i)))
      rw [hsumdeg, ← Nat.cast_add, Nat.cast_lt]
      have hsplit : (∑ l : Fin P.length, (P.get l).2) =
          (P.get i).2 + ∑ l ∈ Finset.univ.erase i, (P.get l).2 :=
        (Finset.add_sum_erase _ _ (Finset.mem_univ i)).symm
      have := hmulti i
      omega
    · rw [hsumdeg]
      exact WithBot.bot_lt_coe _
  have hdegE : (Mh - T).degree < (mprod P).degree := by
    apply lt_of_le_of_lt (degree_sub_le _ _)
    rw [max_lt_iff]
    exact ⟨by rw [hmd]; exact hdeg, hdegT⟩
  exact eq_zero_of_dvd_of_degree_lt hprod_dvd hdegE

theorem toPolyD_ne_zero {D : Cf K} {P : RootData K} {c : K}
    (hfac : toPoly D = C c * mprod P) (hc : c ≠ 0) : toPoly D ≠ 0 := by
  rw [hfac, mprod_eq_prod_fin]
  apply mul_ne_zero (fun h => hc (C_eq_zero.mp h))
  rw [Finset.prod_ne_zero_iff]
  exact fun i _ => pow_ne_zero _ (X_sub_C_ne_zero _)

/-- The executable limit of the (iterated) pair derivative of
`M*(x-p_i)^(m_i)/D` at `p_i` equals the Mathlib-level derivative value of
`M/D_i` at `p_i`. -/
theorem residue_value_eq (M : Cf K) {D : Cf K} {P : RootData K} {c : K}
    (hfac : toPoly D = C c * mprod P) (hc : c ≠ 0)
    (hdist : P.Pairwise (fun a b => a.1 ≠ b.1)) (i : Fin P.length) (j : Nat) :
    limitAtC (pderivC^[j] (mulC M (powC (xsubC (P.get i).1) (P.get i).2), D)).1
        (pderivC^[j] (mulC M (powC (xsubC (P.get i).1) (P.get i).2), D)).2 (P.get i).1 =
      ratDerivVal (toPoly M) (polesD P c i) (P.get i).1 j := by
  set p := (P.get i).1
  set m := (P.get i).2
  have hD0 : toPoly D ≠ 0 := toPolyD_ne_zero hfac hc
  have hDsplit : toPoly D = polesD P c i * (X - C p) ^ m := by
    rw [polesD_mul_own]
    exact hfac
  have hpair := toPolyP_pderivC_iter (mulC M (powC (xsubC p) m), D) j
  have hnum : toPoly (pderivC^[j] (mulC M (powC (xsubC p) m), D)).1 =
      (pderivP^[j] (toPoly M * (X - C p) ^ m, toPoly D)).1 := by
    have := congrArg Prod.fst hpair
    simpa [toPolyP, toPoly_mulC, toPoly_powC, toPoly_xsubC] using this
  have hden : toPoly (pderivC^[j] (mulC M (powC (xsubC p) m), D)).2 =
      (pderivP^[j] (toPoly M * (X - C p) ^ m, toPoly D)).2 := by
    have := congrArg Prod.snd hpair
    simpa [toPolyP, toPoly_mulC, toPoly_powC, toPoly_xsubC] using this
  have hstart : (toPoly M * (X - C p) ^ m) * polesD P c i =
      toPoly M * toPoly D := by
    rw [hDsplit]
    ring
  have hrel := pderivP_respects_iter hstart j
  have hBr : ((pderivP^[j] (toPoly M, polesD P c i)).2).eval p ≠ 0 := by
    rw [pderivP_den, eval_pow]
    exact pow_ne_zero _ (polesD_eval_ne hc hdist i)
  have hBne : toPoly (pderivC^[j] (mulC M (powC (xsubC p) m), D)).2 ≠ 0 := by
    rw [hden, pderivP_den]
    exact pow_ne_zero _ hD0
  rw [limitAtC_sound _ _ (pderivP^[j] (toPoly M, polesD P c i)).1
      (pderivP^[j] (toPoly M, polesD P c i)).2 p hBne hBr ?_]
  · rfl
  · rw [hnum, hden]
    exact hrel

/-- The executable limit in the simple-pole branch equals the value of
`M/D_i` at the pole. -/
theorem residue_value_eq_simple (M : Cf K) {D : Cf K} {P : RootData K} {c : K}
    (hfac : toPoly D = C c * mprod P) (hc : c ≠ 0)
    (hdist : P.Pairwise (fun a b => a.1 ≠ b.1)) (i : Fin P.length)
    (hm1 : (P.get i).2 = 1) :
    limitAtC (mulC M (xsubC (P.get i).1)) D (P.get i).1 =
      ratDerivVal (toPoly M) (polesD P c i) (P.get i).1 0 := by
  set p := (P.get i).1
  have hD0 : toPoly D ≠ 0 := toPolyD_ne_zero hfac hc
  have hDsplit : toPoly D = polesD P c i * (X - C p) ^ (P.get i).2 := by
    rw [polesD_mul_own]
    exact hfac
  have hBr : (polesD P c i).eval p ≠ 0 := polesD_eval_ne hc hdist i
  have hequiv : toPoly (mulC M (xsubC p)) * polesD P c i =
      toPoly M * toPoly D := by
    rw [toPoly_mulC, toPoly_xsubC, hDsplit, hm1, pow_one]
    ring
  rw [limitAtC_sound _ _ (toPoly M) (polesD P c i) p hD0 hBr hequiv]
  rfl

theorem list_range_map_sum (n : Nat) (f : Nat → K) :
    ((List.range n).map f).sum = ∑ k ∈ Finset.range n, f k := by
  induction n with
  | zero => simp
  | succ n ih => rw [List.range_succ, List.map_append, List.sum_append,
      Finset.sum_range_succ, ih, List.map_singleton, List.sum_singleton]

/-- Evaluation of the residue term block of one pole: the sum of
`r/(x-p)^n` over the block equals `D_i(x) * P_i(x) / D(x)`. -/
theorem residueBlock_eval [CharZero K] {M D : Cf K} {P : RootData K} {c : K}
    (hfac : toPoly D = C c * mprod P) (hc : c ≠ 0)
    (hdist : P.Pairwise (fun a b => a.1 ≠ b.1)) (hmult : ∀ pr ∈ P, 1 ≤ pr.2)
    (i : Fin P.length) (x : K) (hx : (toPoly D).eval x ≠ 0) :
    ((residueBlock M D (P.get i)).map (fun t => t.2 / evalC t.1 x)).sum =
      (polesD P c i).eval x * (polesPsum (toPoly M) P c i).eval x / (toPoly D).eval x := by
  set p := (P.get i).1 with hp
  set m := (P.get i).2 with hm
  have hmi : 1 ≤ m := hmult (P.get i) (List.get_mem P i.1 i.2)
  have hDsplit : toPoly D = polesD P c i * (X - C p) ^ m := by
    rw [polesD_mul_own]
    exact hfac
  have hDx : (toPoly D).eval x = (polesD P c i).eval x * (x - p) ^ m := by
    rw [hDsplit, eval_mul, eval_pow, eval_sub, eval_X, eval_C]
  have hDix : (polesD P c i).eval x ≠ 0 := by
    intro h0
    rw [hDx, h0, zero_mul] at hx
    exact hx rfl
  have hxp : x - p ≠ 0 := by
    intro h0
    rw [hDx, h0, zero_pow (by omega : m ≠ 0), mul_zero] at hx
    exact hx rfl
  -- the right-hand side as a reflected range sum
  have hPsum : (polesPsum (toPoly M) P c i).eval x =
      ∑ j ∈ Finset.range m, ratDerivVal (toPoly M) (polesD P c i) p j /
        (j.factorial : K) * (x - p) ^ j := by
    rw [polesPsum, eval_finset_sum]
    apply Finset.sum_congr rfl
    intro j _
    rw [eval_mul, eval_C, eval_pow, eval_sub, eval_X, eval_C]
  have key : ∀ r : Nat → K,
      (∑ k ∈ Finset.range m, r k / (x - p) ^ (k + 1)) =
        (∑ j ∈ Finset.range m, r (m - 1 - j) * (x - p) ^ j) / (x - p) ^ m := by
    intro r
    rw [Finset.sum_div]
    rw [← Finset.sum_range_reflect (fun j => r (m - 1 - j) * (x - p) ^ j / (x - p) ^ m) m]
    apply Finset.sum_congr rfl
    intro k hk
    have hkm : k < m := Finset.mem_range.mp hk
    have h1 : m - 1 - (m - 1 - k) = k := by omega
    have h2 : (x - p) ^ m = (x - p) ^ (m - 1 - k) * (x - p) ^ (k + 1) := by
      rw [← pow_add]
      congr 1
      omega
    rw [h1, h2, mul_comm (r k), mul_div_mul_left _ _ (pow_ne_zero _ hxp)]
  have hRHS : (polesD P c i).eval x * (polesPsum (toPoly M) P c i).eval x /
      (toPoly D).eval x = (polesPsum (toPoly M) P c i).eval x / (x - p) ^ m := by
    rw [hDx, mul_div_mul_left _ _ hDix]
  rw [hRHS]
  by_cases hone : m = 1
  · -- simple-pole branch of the loop
    have hblock : residueBlock M D (P.get i) =
        [(xsubC p, limitAtC (mulC M (xsubC p)) D p)] := by
      rw [residueBlock, if_pos (hm ▸ hone)]
    rw [hblock, List.map_singleton, List.sum_singleton]
    have hval := residue_value_eq_simple M hfac hc hdist i (hm ▸ hone)
    rw [hval]
    have hxf : evalC (xsubC p) x = x - p := by
      rw [evalC_toPoly, toPoly_xsubC, eval_sub, eval_X, eval_C]
    rw [hxf, hPsum, hone]
    rw [Finset.sum_range_one]
    simp only [pow_zero, pow_one, Nat.factorial_zero, Nat.cast_one, div_one, mul_one]
  · -- repeated-pole branch of the loop
    have hblock : residueBlock M D (P.get i) =
        (List.range m).map (fun k =>
          (powC (xsubC p) (k + 1),
            limitAtC (pderivC^[m - (k + 1)] (mulC M (powC (xsubC p) m), D)).1
              (pderivC^[m - (k + 1)] (mulC M (powC (xsubC p) m), D)).2 p /
              ((m - (k + 1)).factorial : K))) := by
      rw [residueBlock, if_neg (by rw [← hm]; exact hone)]
    rw [hblock, List.map_map]
    have hterm : ∀ k : Nat,
        ((fun t : Cf K × K => t.2 / evalC t.1 x) ∘ (fun k =>
          (powC (xsubC p) (k + 1),
            limitAtC (pderivC^[m - (k + 1)] (mulC M (powC (xsubC p) m), D)).1
              (pderivC^[m - (k + 1)] (mulC M (powC (xsubC p) m), D)).2 p /
              ((m - (k + 1)).factorial : K)))) k =
          (ratDerivVal (toPoly M) (polesD P c i) p (m - 1 - k) /
            ((m - 1 - k).factorial : K)) / (x - p) ^ (k + 1) := by
      intro k
      have hidx : m - (k + 1) = m - 1 - k := by omega
      have hval := residue_value_eq M hfac hc hdist i (m - 1 - k)
      have hxf : evalC (powC (xsubC p) (k + 1)) x = (x - p) ^ (k + 1) := by
        rw [evalC_toPoly, toPoly_powC, toPoly_xsubC, eval_pow, eval_sub, eval_X, eval_C]
      simp only [Function.comp_apply, hidx, hxf]
      rw [hval]
    rw [List.map_congr_left (fun k _ => hterm k), list_range_map_sum, key]
    rw [hPsum]
    congr 1
    apply Finset.sum_congr rfl
    intro j hj
    have hjm : j < m := Finset.mem_range.mp hj
    have : m - 1 - (m - 1 - j) = j := by omega
    rw [this]

/-- Master recombination lemma: the quotient plus the evaluated residue
terms of `residuesC` reproduce `N/D` at every point where `D` does not
vanish. -/
theorem residues_recombine [CharZero K] (N D : Cf K) (P : RootData K) (c : K)
    (hfac : FactorHyp D P c) (x : K) (hx : evalC D x ≠ 0) :
    evalC (residuesC N D P).2 x +
      (((residuesC N D P).1).map (fun t => t.2 / evalC t.1 x)).sum =
      evalC N x / evalC D x := by
  have hfacP : toPoly D = C c * mprod P := hfac.toPoly_eq
  obtain ⟨_, hc, hdist, hmult⟩ := hfac
  have hD0 : toPoly D ≠ 0 := toPolyD_ne_zero hfacP hc
  obtain ⟨hdiv, hdeg⟩ := divModC_spec N D hD0
  have hxD : (toPoly D).eval x ≠ 0 := by rwa [evalC_toPoly] at hx
  set Q := (divModC N D).1 with hQ
  set M := (divModC N D).2 with hM
  have hres2 : (residuesC N D P).2 = Q := rfl
  by_cases hM0 : normC M = ([] : Cf K)
  · have hMz : toPoly M = 0 := toPoly_eq_zero_of_normC_nil hM0
    have hres1 : (residuesC N D P).1 = [] := by
      show ((if normC (divModC N D).2 = ([] : Cf K) then ([] : RootData K) else P).map
        (residueBlock (divModC N D).2 D)).flatten = []
      rw [← hM, if_pos hM0]
      rfl
    rw [hres1, hres2]
    simp only [List.map_nil, List.sum_nil, add_zero]
    rw [hMz] at hdiv
    have hdiv' := congrArg (fun q => Polynomial.eval x q) hdiv
    simp only [eval_add, eval_mul, eval_zero, add_zero] at hdiv'
    rw [evalC_toPoly, evalC_toPoly, evalC_toPoly, eq_div_iff hxD]
    linear_combination -hdiv'
  have hA := pf_polyidentity M D P c hfacP hc hdist hmult hdeg
  have hres1 : (residuesC N D P).1 = (P.map (residueBlock M D)).flatten := by
    show ((if normC (divModC N D).2 = ([] : Cf K) then ([] : RootData K) else P).map
      (residueBlock (divModC N D).2 D)).flatten = _
    rw [← hM, if_neg hM0]
  rw [hres1, hres2]
  have hflat : (((P.map (residueBlock M D)).flatten).map
      (fun t => t.2 / evalC t.1 x)).sum =
      ∑ i : Fin P.length,
        ((residueBlock M D (P.get i)).map (fun t => t.2 / evalC t.1 x)).sum := by
    rw [List.map_flatten, List.sum_flatten, List.map_map, List.map_map]
    conv_lhs => rw [← List.ofFn_get P, List.map_ofFn]
    rw [List.sum_ofFn]
    rfl
  rw [hflat]
  have hblocks : ∀ i : Fin P.length,
      ((residueBlock M D (P.get i)).map (fun t => t.2 / evalC t.1 x)).sum =
      (polesD P c i).eval x * (polesPsum (toPoly M) P c i).eval x / (toPoly D).eval x :=
    fun i => residueBlock_eval hfacP hc hdist hmult i x hxD
  rw [Finset.sum_congr rfl (fun i _ => hblocks i)]
  have hsum : ∑ i : Fin P.length,
      (polesD P c i).eval x * (polesPsum (toPoly M) P c i).eval x / (toPoly D).eval x =
      (toPoly M).eval x / (toPoly D).eval x := by
    rw [← Finset.sum_div]
    congr 1
    conv_rhs => rw [hA]
    rw [eval_finset_sum]
    apply Finset.sum_congr rfl
    intro i _
    rw [eval_mul]
  rw [hsum]
  have hdiv' := congrArg (fun q => Polynomial.eval x q) hdiv
  simp only [eval_add, eval_mul] at hdiv'
  rw [evalC_toPoly, evalC_toPoly, evalC_toPoly]
  rw [eq_div_iff hxD, add_mul, div_mul_cancel₀ _ hxD]
  linear_combination -hdiv'

/-- The iterated quotient-rule derivative of `M*(x-p_i)^(m_i)/D` has, at
`p_i`, the limit given by the corresponding derivative value of the
regular quotient `M/D_i`. -/
theorem ratLimitAt_pderiv (M : Cf K) {D : Cf K} {P : RootData K} {c : K}
    (hfac : toPoly D = C c * mprod P) (hc : c ≠ 0)
    (hdist : P.Pairwise (fun a b => a.1 ≠ b.1)) (i : Fin P.length) (j : Nat) :
    RatLimitAt
      ((pderivP^[j] (toPoly M * (X - C (P.get i).1) ^ (P.get i).2, toPoly D)).1)
      ((pderivP^[j] (toPoly M * (X - C (P.get i).1) ^ (P.get i).2, toPoly D)).2)
      (P.get i).1 (ratDerivVal (toPoly M) (polesD P c i) (P.get i).1 j) := by
  set p := (P.get i).1
  set m := (P.get i).2
  have hDsplit : toPoly D = polesD P c i * (X - C p) ^ m := by
    rw [polesD_mul_own]
    exact hfac
  have hDi0 : polesD P c i ≠ 0 := fun h => polesD_eval_ne hc hdist i (by rw [h, eval_zero])
  refine ⟨m * 2 ^ j, (pderivP^[j] (toPoly M, polesD P c i)).1,
    polesD P c i ^ 2 ^ j, ?_, ?_, ?_, ?_⟩
  · -- numerator factorisation, from well-definedness of the derivative
    have hstart : (toPoly M * (X - C p) ^ m) * polesD P c i = toPoly M * toPoly D := by
      rw [hDsplit]
      ring
    have hrel := pderivP_respects_iter hstart j
    rw [pderivP_den, pderivP_den] at hrel
    -- hrel : numG * polesD^(2^j) = numH * D^(2^j)
    have hD2 : (toPoly D) ^ 2 ^ j = (X - C p) ^ (m * 2 ^ j) * polesD P c i ^ 2 ^ j := by
      rw [hDsplit, mul_pow, ← pow_mul]
      ring
    apply mul_right_cancel₀ (pow_ne_zero (2 ^ j) hDi0)
    rw [hrel, hD2]
    ring
  · rw [pderivP_den, hDsplit, mul_pow, ← pow_mul]
    ring
  · rw [eval_pow]
    exact pow_ne_zero _ (polesD_eval_ne hc hdist i)
  · rw [ratDerivVal, pderivP_den, eval_pow]

/-- The simple-pole limit `lim_(x->p) M*(x-p)/D` is the value of `M/D_i`
at the pole. -/
theorem ratLimitAt_simple (M : Cf K) {D : Cf K} {P : RootData K} {c : K}
    (hfac : toPoly D = C c * mprod P) (hc : c ≠ 0)
    (hdist : P.Pairwise (fun a b => a.1 ≠ b.1)) (i : Fin P.length)
    (hm1 : (P.get i).2 = 1) :
    RatLimitAt (toPoly M * (X - C (P.get i).1)) (toPoly D) (P.get i).1
      (ratDerivVal (toPoly M) (polesD P c i) (P.get i).1 0) := by
  set p := (P.get i).1
  have hDsplit : toPoly D = polesD P c i * (X - C p) ^ (P.get i).2 := by
    rw [polesD_mul_own]
    exact hfac
  refine ⟨1, toPoly M, polesD P c i, by rw [pow_one]; ring, ?_, polesD_eval_ne hc hdist i, rfl⟩
  rw [hDsplit, hm1, pow_one]
  ring

/-- C2: `residues(expr)` first divides `N` by `D`, producing the
quotient `Q` it returns and a strictly proper remainder `M`, and its
factor/residue list contains, for each pole `p` of `M/D` of multiplicity
`m` and each rank `n = 1..m`, exactly the pair of the factor
`(var - p)^n` and the coefficient
`lim_(x->p) d^(m-n)/dx^(m-n) ((x-p)^m * M/D) / (m-n)!` (for a simple
pole this is the residue `lim_(x->p) (x-p)*M/D`), where the derivative
is the quotient-rule derivative of the numerator/denominator pair and
the limit is characterised algebraically by `RatLimitAt`. -/
theorem C2_residues (K : Type) [Field K] [DecidableEq K] [CharZero K]
    (N D : Cf K) (P : RootData K) (c : K) (hfac : FactorHyp D P c) :
    ((toPoly N - toPoly (residuesC N D P).2 * toPoly D).degree < (toPoly D).degree) ∧
    (∀ t ∈ (residuesC N D P).1, ∃ (i : Fin P.length) (n : Nat),
      1 ≤ n ∧ n ≤ (P.get i).2 ∧ toPoly t.1 = (X - C (P.get i).1) ^ n ∧
      RatLimitAt
        ((pderivP^[(P.get i).2 - n] ((toPoly N - toPoly (residuesC N D P).2 * toPoly D) *
            (X - C (P.get i).1) ^ (P.get i).2, toPoly D)).1)
        ((pderivP^[(P.get i).2 - n] ((toPoly N - toPoly (residuesC N D P).2 * toPoly D) *
            (X - C (P.get i).1) ^ (P.get i).2, toPoly D)).2)
        (P.get i).1 ((((P.get i).2 - n).factorial : K) * t.2)) ∧
    (toPoly N - toPoly (residuesC N D P).2 * toPoly D ≠ 0 →
      ∀ (i : Fin P.length) (n : Nat), 1 ≤ n → n ≤ (P.get i).2 →
        ∃ t ∈ (residuesC N D P).1, toPoly t.1 = (X - C (P.get i).1) ^ n ∧
          RatLimitAt
            ((pderivP^[(P.get i).2 - n] ((toPoly N - toPoly (residuesC N D P).2 * toPoly D) *
                (X - C (P.get i).1) ^ (P.get i).2, toPoly D)).1)
            ((pderivP^[(P.get i).2 - n] ((toPoly N - toPoly (residuesC N D P).2 * toPoly D) *
                (X - C (P.get i).1) ^ (P.get i).2, toPoly D)).2)
            (P.get i).1 ((((P.get i).2 - n).factorial : K) * t.2)) := by
  have hfacP : toPoly D = C c * mprod P := hfac.toPoly_eq
  obtain ⟨_, hc, hdist, hmult⟩ := hfac
  have hD0 : toPoly D ≠ 0 := toPolyD_ne_zero hfacP hc
  obtain ⟨hdiv, hdeg⟩ := divModC_spec N D hD0
  set Q := (divModC N D).1 with hQ
  set M := (divModC N D).2 with hM
  have hres2 : (residuesC N D P).2 = Q := rfl
  have hMsem : toPoly N - toPoly (residuesC N D P).2 * toPoly D = toPoly M := by
    rw [hres2, hdiv]
    ring
  rw [hMsem]
  refine ⟨hdeg, ?_, ?_⟩
  · -- soundness: every returned entry is one of the specified pairs
    intro t ht
    by_cases hM0 : normC M = ([] : Cf K)
    · have hres1 : (residuesC N D P).1 = [] := by
        show ((if normC (divModC N D).2 = ([] : Cf K) then ([] : RootData K) else P).map
          (residueBlock (divModC N D).2 D)).flatten = []
        rw [← hM, if_pos hM0]
        rfl
      rw [hres1] at ht
      exact absurd ht (List.not_mem_nil t)
    have hres1 : (residuesC N D P).1 = (P.map (residueBlock M D)).flatten := by
      show ((if normC (divModC N D).2 = ([] : Cf K) then ([] : RootData K) else P).map
        (residueBlock (divModC N D).2 D)).flatten = _
      rw [← hM, if_neg hM0]
    rw [hres1] at ht
    rw [List.mem_flatten] at ht
    obtain ⟨l, hl, htl⟩ := ht
    rw [List.mem_map] at hl
    obtain ⟨pr, hpr, rfl⟩ := hl
    obtain ⟨i, hi⟩ := List.mem_iff_get.mp hpr
    subst hi
    by_cases hone : (P.get i).2 = 1
    · rw [residueBlock, if_pos hone] at htl
      rw [List.mem_singleton] at htl
      subst htl
      refine ⟨i, 1, le_refl 1, by omega, by rw [toPoly_xsubC, pow_one], ?_⟩
      have hval := residue_value_eq_simple M hfacP hc hdist i hone
      rw [hval, hone]
      have h := ratLimitAt_simple M hfacP hc hdist i hone
      simpa using h
    · rw [residueBlock, if_neg hone] at htl
      rw [List.mem_map] at htl
      obtain ⟨k, hk, rfl⟩ := htl
      rw [List.mem_range] at hk
      refine ⟨i, k + 1, by omega, by omega, by rw [toPoly_powC, toPoly_xsubC], ?_⟩
      have hval := residue_value_eq M hfacP hc hdist i ((P.get i).2 - (k + 1))
      show RatLimitAt _ _ _ _
      rw [hval]
      have hfac0 : ((((P.get i).2 - (k + 1)).factorial : K)) ≠ 0 :=
        Nat.cast_ne_zero.mpr (Nat.factorial_ne_zero _)
      rw [mul_div_cancel₀ _ hfac0]
      exact ratLimitAt_pderiv M hfacP hc hdist i ((P.get i).2 - (k + 1))
  · -- completeness: every pole and rank contributes an entry
    intro hMne i n hn1 hn2
    have hM0 : normC M ≠ ([] : Cf K) := fun h =>
      hMne (toPoly_eq_zero_of_normC_nil h)
    have hres1 : (residuesC N D P).1 = (P.map (residueBlock M D)).flatten := by
      show ((if normC (divModC N D).2 = ([] : Cf K) then ([] : RootData K) else P).map
        (residueBlock (divModC N D).2 D)).flatten = _
      rw [← hM, if_neg hM0]
    rw [hres1]
    by_cases hone : (P.get i).2 = 1
    · have hn : n = 1 := by omega
      subst hn
      refine ⟨(xsubC (P.get i).1, limitAtC (mulC M (xsubC (P.get i).1)) D (P.get i).1),
        ?_, by rw [toPoly_xsubC, pow_one], ?_⟩
      · rw [List.mem_flatten]
        refine ⟨residueBlock M D (P.get i), List.mem_map_of_mem _ (List.get_mem P i.1 i.2), ?_⟩
        rw [residueBlock, if_pos hone]
        exact List.mem_singleton.mpr rfl
      · have hval := residue_value_eq_simple M hfacP hc hdist i hone
        rw [hval, hone]
        have h := ratLimitAt_simple M hfacP hc hdist i hone
        simpa using h
    · refine ⟨(powC (xsubC (P.get i).1) n,
        limitAtC (pderivC^[(P.get i).2 - n] (mulC M (powC (xsubC (P.get i).1) (P.get i).2), D)).1
          (pderivC^[(P.get i).2 - n] (mulC M (powC (xsubC (P.get i).1) (P.get i).2), D)).2
          (P.get i).1 / (((P.get i).2 - n).factorial : K)),
        ?_, by rw [toPoly_powC, toPoly_xsubC], ?_⟩
      · rw [List.mem_flatten]
        refine ⟨residueBlock M D (P.get i), List.mem_map_of_mem _ (List.get_mem P i.1 i.2), ?_⟩
        rw [residueBlock, if_neg hone]
        rw [List.mem_map]
        refine ⟨n - 1, List.mem_range.mpr (by omega), ?_⟩
        have : n - 1 + 1 = n := by omega
        rw [this]
      · have hval := residue_value_eq M hfacP hc hdist i ((P.get i).2 - n)
        rw [hval]
        have hfac0 : ((((P.get i).2 - n).factorial : K)) ≠ 0 :=
          Nat.cast_ne_zero.mpr (Nat.factorial_ne_zero _)
        rw [mul_div_cancel₀ _ hfac0]
        exact ratLimitAt_pderiv M hfacP hc hdist i ((P.get i).2 - n)

/-- Witness for C2 at a concrete input over the rationals: dividing
`50 s^2 + 5` by `2 s (s+1)^2` and reading off the residues at the simple
pole `0` and the double pole `-1`. -/
theorem C2_witness :
    ((toPoly [5, 0, 50] - toPoly (residuesC [5, 0, 50] [0, 2, 4, 2]
        [(0, 1), (-1, 2)] : List (Cf ℚ × ℚ) × Cf ℚ).2 * toPoly [0, 2, 4, 2]).degree <
      (toPoly ([0, 2, 4, 2] : Cf ℚ)).degree) :=
  (C2_residues ℚ [5, 0, 50] [0, 2, 4, 2] [(0, 1), (-1, 2)] 2
    (by refine ⟨?_, by norm_num, by norm_num [List.pairwise_cons], by norm_num⟩
        norm_num [normC, smulC, prodRootsC, mulC, powC, xsubC, addC])).1

/-- C1: for every expression that is a product of a rational function in
the stated variable and a pure delay exponential, with the denominator
factorisation supplied by the external root-finding primitive,
`partfrac(expr)` — the polynomial quotient plus the sum of residue terms
`r/(var-p)^k`, multiplied back by the delay exponential when a delay was
extracted — is algebraically equal to `expr`: the exponential
coefficients agree, and the rational parts agree at every point where
the denominator does not vanish. -/
theorem C1_partfrac_recombines (K : Type) [Field K] [DecidableEq K] [CharZero K]
    (e : DExpr K) (P : RootData K) (c : K) (hfac : FactorHyp e.den P c) :
    expCoeffPF (partfracC e P) = e.c0 ∧
      ∀ x : K, evalC e.den x ≠ 0 →
        evalPF (partfracC e P) x = evalC e.num x / evalC e.den x := by
  constructor
  · show -(- e.c0) = e.c0
    rw [neg_neg]
  · intro x hx
    show evalC (residuesC e.num e.den P).2 x +
      (((residuesC e.num e.den P).1).map (fun t => t.2 / evalC t.1 x)).sum =
      evalC e.num x / evalC e.den x
    exact residues_recombine e.num e.den P c hfac x hx

/-- Witness for C1 at a concrete input over the rationals: the
expression `(50 s^2 + 5) / (2 s (s+1)^2) * exp(-3 s)`, which has a
simple pole at `0`, a repeated pole at `-1` and a delay factor,
recombines at the sample point `s = 3`. -/
theorem C1_witness :
    evalPF (partfracC (⟨[5, 0, 50], [0, 2, 4, 2], -3⟩ : DExpr ℚ) [(0, 1), (-1, 2)]) 3 =
      evalC [5, 0, 50] 3 / evalC [0, 2, 4, 2] 3 :=
  (C1_partfrac_recombines ℚ ⟨[5, 0, 50], [0, 2, 4, 2], -3⟩ [(0, 1), (-1, 2)] 2
    (by refine ⟨?_, by norm_num, by norm_num [List.pairwise_cons], by norm_num⟩
        norm_num [normC, smulC, prodRootsC, mulC, powC, xsubC, addC])).2 3
    (by norm_num [evalC])

/-- C8 (code bug): `PZK` scales the gain by `exp(var*delay)` (line 287)
although the factor extracted from the input was `exp(-var*delay)` — the
factor `partfrac` correctly reapplies at line 235.  At the input
`exp(-s) * 1/(s+1)` (so `c0 = -1`, delay `1`) the rational part of the
returned product matches the input (checked at the sample point `s = 1`)
and the gain is the ratio of leading coefficients, but the exponential
coefficient of the returned product is `+1` while the input has `-1`, so
the returned product is `expr * exp(2s)`, not `expr`. -/
theorem C8_PZK_delay_sign :
    (PZKC (⟨[1], [1, 1], -1⟩ : DExpr ℚ) [] [(-1, 1)]).expCoeff = 1 ∧
      (⟨[1], [1, 1], -1⟩ : DExpr ℚ).c0 = -1 ∧
      (PZKC (⟨[1], [1, 1], -1⟩ : DExpr ℚ) [] [(-1, 1)]).gain = 1 ∧
      evalPZK (PZKC (⟨[1], [1, 1], -1⟩ : DExpr ℚ) [] [(-1, 1)]) 1 =
        evalC [1] 1 / evalC [1, 1] 1 ∧
      expCoeffPF (partfracC (⟨[1], [1, 1], -1⟩ : DExpr ℚ) [(-1, 1)]) = -1 ∧
      (1 : ℚ) ≠ -1 := by
  refine ⟨?_, rfl, ?_, ?_, ?_, by norm_num⟩
  · norm_num [PZKC, asRatfunDelay]
  · norm_num [PZKC, asRatfunDelay, lcC, normC]
  · norm_num [PZKC, asRatfunDelay, lcC, normC, evalPZK, evalC]
  · norm_num [expCoeffPF, partfracC, asRatfunDelay]

/-- C5 counterexample: a raw `Norton` with `Y = 0` (a pure ideal current
source in Norton form) used as the *receiver* of a series combination
does not raise: `Norton.series` converts it through `1/0 = zoo` and
`Thevenin.series` only guards the right-hand operand, so a network is
returned.  (Junk division-by-zero values are `0` under the field
convention.) -/
theorem C5_counterexample :
    seriesOP (1 : ℚ) (.nort 0 1) (.res 1) = .ok (.nort 1 0) := by
  norm_num [seriesOP, theveninSeriesBody, Zval, Vval, toNort, Except.map]

/-- C5 amended: series combination fails with the current-source
topology error whenever the *right-hand* operand is a pure ideal current
source (the `I` class, or a raw Norton with `Y = 0`), and the `I` class
also fails as receiver; dually, parallel combination fails with the
voltage-source topology error whenever the right-hand operand is a pure
ideal voltage source (the `V` class, or a raw Thevenin with `Z = 0`),
and the `V` class also fails as receiver.  In every such case no result
network is produced. -/
theorem C5_amended (K : Type) [Field K] [DecidableEq K] (s : K) (a : OnePortN K)
    (i v si sv : K) :
    seriesOP s a (.isrc si) = .error .currentInSeries ∧
    seriesOP s a (.nort 0 i) = .error .currentInSeries ∧
    seriesOP s (.isrc si) a = .error .currentInSeries ∧
    parallelOP s a (.vsrc sv) = .error .voltageInParallel ∧
    parallelOP s a (.thev 0 v) = .error .voltageInParallel ∧
    parallelOP s (.vsrc sv) a = .error .voltageInParallel := by
  refine ⟨?_, ?_, ?_, ?_, ?_, ?_⟩ <;>
    cases a <;>
      simp [seriesOP, parallelOP, theveninSeriesBody, nortonParallelBody, ZisZero,
        Except.map]

/-- C6 (code bug): two ideal voltage sources in series are combined by
`V.series` as `V(self.V + x.V)` (line 1181), but the `V` constructor
integrates its argument again, so the stored voltage becomes
`(Va/s + Vb/s)/s = (Va+Vb)/s^2` instead of the direct sum's `(Va+Vb)/s`;
dually `I.parallel` (line 1217) double-integrates the summed current.
At `s = 2`, `V(1).series(V(1))` stores `1/2` while the ideal source
`V(1+1)` stores `1`. -/
theorem C6_double_integration :
    seriesOP (2 : ℚ) (mkV 2 1) (mkV 2 1) = .ok (.vsrc (1 / 2)) ∧
    mkV (2 : ℚ) (1 + 1) = .vsrc 1 ∧
    ((1 / 2 : ℚ)) ≠ 1 ∧
    parallelOP (2 : ℚ) (mkI 2 1) (mkI 2 1) = .ok (.isrc (1 / 2)) ∧
    mkI (2 : ℚ) (1 + 1) = .isrc 1 := by
  refine ⟨?_, ?_, by norm_num, ?_, ?_⟩ <;> norm_num [seriesOP, parallelOP, mkV, mkI]

/-- C7 counterexample: at `s = 2`, `R(2).series(V(5))` yields
`Thevenin(Z = 2, V = 5/2)` — the stored voltage is `5/s`, not `5` — and
`R(2).parallel(I(20))` yields the *Thevenin* network `(Z = 2, V = 20)`
(i.e. `40/s`), not a Norton with `I = 20`; even with the current source
as receiver the Norton current is `20/s = 10`, not `20`. -/
theorem C7_counterexample :
    seriesOP (2 : ℚ) (.res 2) (mkV 2 5) = .ok (.thev 2 (5 / 2)) ∧
    ((5 / 2 : ℚ)) ≠ 5 ∧
    parallelOP (2 : ℚ) (.res 2) (mkI 2 20) = .ok (.thev 2 20) ∧
    parallelOP (2 : ℚ) (mkI 2 20) (.res 2) = .ok (.nort (1 / 2) 10) ∧
    ((10 : ℚ)) ≠ 20 := by
  refine ⟨?_, by norm_num, ?_, ?_, by norm_num⟩ <;>
    norm_num [seriesOP, parallelOP, theveninSeriesBody, nortonParallelBody, mkV, mkI,
      Zval, Vval, Yattr, Iattr, toNort, toThev, ZisZero, Except.map]

/-- C7 amended: `resistor(2)` in series with `voltage-source(5)` yields
`Thevenin(Z = 2, V = 5/s)`; `current-source(20)` in parallel with
`resistor(2)` yields `Norton(Y = 1/2, I = 20/s)`; with the resistor as
receiver, `resistor(2)` in parallel with `current-source(20)` yields the
equivalent Thevenin form `(Z = 2, V = 40/s)`. -/
theorem C7_amended (K : Type) [Field K] [DecidableEq K] [CharZero K] (s : K) :
    seriesOP s (.res 2) (mkV s 5) = .ok (.thev 2 (5 / s)) ∧
    parallelOP s (mkI s 20) (.res 2) = .ok (.nort (1 / 2) (20 / s)) ∧
    parallelOP s (.res 2) (mkI s 20) = .ok (.thev 2 (40 / s)) := by
  have h2 : (2 : K) ≠ 0 := two_ne_zero
  refine ⟨?_, ?_, ?_⟩
  · simp [seriesOP, theveninSeriesBody, mkV, Zval, Vval]
  · simp [parallelOP, nortonParallelBody, mkI, ZisZero, h2, Yattr, Iattr, toNort]
  · simp [parallelOP, nortonParallelBody, mkI, Yattr, Iattr, toNort, toThev, Except.map]
    rw [div_mul_eq_mul_div]
    norm_num

theorem C7_witness :
    seriesOP (3 : ℚ) (.res 2) (mkV 3 5) = .ok (.thev 2 (5 / 3)) ∧
    parallelOP (3 : ℚ) (mkI 3 20) (.res 2) = .ok (.nort (1 / 2) (20 / 3)) ∧
    parallelOP (3 : ℚ) (.res 2) (mkI 3 20) = .ok (.thev 2 (40 / 3)) :=
  C7_amended ℚ 3

/-- Claim C3: the spec says every two-port conversion accessor returns a
matrix tagged with the target form.  The A to B, B to A, Y to Z and Z to Y
conversions do carry the right tag, but the code of `BMatrix.G` constructs an
`HMatrix` and the code of `GMatrix.B` constructs an `AMatrix`, so converting a
B matrix to the inverse-hybrid form is H-tagged (never G-tagged) and converting
a G matrix to the inverse-chain form is A-tagged (never B-tagged), for every
input matrix. -/
theorem C3_tag_bug (m : Mat2 ℚ) :
    (AMatrix_B m).1 = TPForm.B ∧ (BMatrix_A m).1 = TPForm.A ∧
    (YMatrix_Z m).1 = TPForm.Z ∧ (ZMatrix_Y m).1 = TPForm.Y ∧
    (BMatrix_G m).1 = TPForm.H ∧ (BMatrix_G m).1 ≠ TPForm.G ∧
    (GMatrix_B m).1 = TPForm.A ∧ (GMatrix_B m).1 ≠ TPForm.B :=
  ⟨rfl, rfl, rfl, rfl, rfl, fun h => TPForm.noConfusion h, rfl,
    fun h => TPForm.noConfusion h⟩

/-- Claim C4: for every chain matrix with nonzero determinant, converting to
the inverse-chain form (`AMatrix.B`) and back (`BMatrix.A`) recovers the
original matrix entry for entry, and likewise the admittance/impedance round
trip `YMatrix.Z` then `ZMatrix.Y` recovers the original matrix. -/
theorem C4_roundtrip (m : Mat2 K) (h : det2 m ≠ 0) :
    (BMatrix_A (AMatrix_B m).2).2 = m ∧ (ZMatrix_Y (YMatrix_Z m).2).2 = m := by
  obtain ⟨a, b, c, d⟩ := m
  have hD : det2 (Mat2.mk a b c d) = a * d - b * c := rfl
  rw [hD] at h
  have hE : det2 (Mat2.mk (d / (a * d - b * c)) (-b / (a * d - b * c))
      (-c / (a * d - b * c)) (a / (a * d - b * c))) = 1 / (a * d - b * c) := by
    show (d / (a * d - b * c)) * (a / (a * d - b * c))
        - (-b / (a * d - b * c)) * (-c / (a * d - b * c)) = 1 / (a * d - b * c)
    rw [div_mul_div_comm, div_mul_div_comm, div_sub_div_same,
      div_eq_div_iff (mul_ne_zero h h) h]
    ring
  constructor <;>
  · simp only [AMatrix_B, BMatrix_A, YMatrix_Z, ZMatrix_Y, Mat2.mk.injEq, hD, hE]
    refine ⟨?_, ?_, ?_, ?_⟩ <;> field_simp

theorem C4_witness :
    det2 (Mat2.mk (1 : ℚ) 2 3 4) ≠ 0 ∧
    ((BMatrix_A (AMatrix_B (Mat2.mk (1 : ℚ) 2 3 4)).2).2 = Mat2.mk (1 : ℚ) 2 3 4 ∧
     (ZMatrix_Y (YMatrix_Z (Mat2.mk (1 : ℚ) 2 3 4)).2).2 = Mat2.mk (1 : ℚ) 2 3 4) :=
  ⟨by norm_num [det2], C4_roundtrip _ (by norm_num [det2])⟩

theorem hget_append_lt (h h2 : Heap K) (i : Nat) (hi : i < h.length) :
    hget (h ++ h2) i = hget h i := by
  induction h generalizing i with
  | nil => exact absurd hi (Nat.not_lt_zero i)
  | cons a t ih =>
    cases i with
    | zero => rfl
    | succ n => exact ih n (Nat.lt_of_succ_lt_succ hi)

theorem hget_append_len (h : Heap K) (o : HObj K) :
    hget (h ++ [o]) h.length = some o := by
  induction h with
  | nil => rfl
  | cons a t ih => exact ih

theorem hset_length (h : Heap K) (r : Nat) (o : HObj K) :
    (hset h r o).length = h.length := by
  induction h generalizing r with
  | nil => rfl
  | cons a t ih =>
    cases r with
    | zero => rfl
    | succ n => simpa [hset] using ih n

theorem hget_set_ne (h : Heap K) (r i : Nat) (o : HObj K) (hne : i ≠ r) :
    hget (hset h r o) i = hget h i := by
  induction h generalizing r i with
  | nil => rfl
  | cons a t ih =>
    cases r with
    | zero =>
      cases i with
      | zero => exact absurd rfl hne
      | succ n => rfl
    | succ m =>
      cases i with
      | zero => rfl
      | succ n => exact ih m n (fun he => hne (by rw [he]))

theorem hset_concat (h : Heap K) (a b : HObj K) :
    hset (h ++ [a]) h.length b = h ++ [b] := by
  induction h with
  | nil => rfl
  | cons x t ih => simp [hset, ih]

theorem extends_refl (h : Heap K) : Extends h h :=
  ⟨Nat.le_refl _, fun _ _ => rfl⟩

theorem extends_append (h : Heap K) (l : Heap K) : Extends h (h ++ l) :=
  ⟨by simp, fun i hi => hget_append_lt h l i hi⟩

theorem getMat_append_lt (h l : Heap K) (r : Nat) (hr : r < h.length) :
    getMat (h ++ l) r = getMat h r := by
  simp [getMat, hget_append_lt h l r hr]

theorem getVec_append_lt (h l : Heap K) (r : Nat) (hr : r < h.length) :
    getVec (h ++ l) r = getVec h r := by
  simp [getVec, hget_append_lt h l r hr]

theorem getMat_concat_len (h : Heap K) (M : Mat3 K) :
    getMat (h ++ [HObj.mat M]) h.length = M := by
  simp [getMat, hget_append_len]

theorem getVec_concat_len (h : Heap K) (v : Vec3 K) :
    getVec (h ++ [HObj.vec v]) h.length = v := by
  simp [getVec, hget_append_len]

theorem hget_append_right (h l : Heap K) (i : Nat) :
    hget (h ++ l) (h.length + i) = hget l i := by
  induction h with
  | nil => rw [List.nil_append, List.length_nil, Nat.zero_add]
  | cons a t ih => simpa [hget, Nat.succ_add] using ih

theorem getMat_append_right (h l : Heap K) (i : Nat) :
    getMat (h ++ l) (h.length + i) = getMat l i := by
  simp [getMat, hget_append_right]

theorem getVec_append_right (h l : Heap K) (i : Nat) :
    getVec (h ++ l) (h.length + i) = getVec l i := by
  simp [getVec, hget_append_right]

theorem hget_append2_len (h : Heap K) (a b : HObj K) :
    hget (h ++ [a, b]) (h.length + 1) = some b := by
  induction h with
  | nil => rfl
  | cons x t ih => simpa [hget, Nat.succ_add] using ih

theorem getVec_append2_len (h : Heap K) (a : HObj K) (v : Vec3 K) :
    getVec (h ++ [a, HObj.vec v]) (h.length + 1) = v := by
  simp [getVec, hget_append2_len]

theorem hset_concat2 (h : Heap K) (a b c : HObj K) :
    hset (h ++ [a, b]) (h.length + 1) c = h ++ [a, c] := by
  induction h with
  | nil => rfl
  | cons x t ih => simpa [hset, Nat.succ_add] using ih

theorem npIsc_eq (h : Heap K) (np : NP3)
    (hv : np.vref < h.length) :
    npIsc h np =
      (h ++ [HObj.mat (inv3 (getMat h np.zref)),
             HObj.vec (fun m => getVec h np.vref m * inv3 (getMat h np.zref) m m)],
       h.length + 1) := by
  simp only [npIsc, npY]
  rw [getVec_append_lt h _ np.vref hv, getMat_concat_len]
  simp

theorem hget_set_lt (h : Heap K) (r : Nat) (o : HObj K) (hr : r < h.length) :
    hget (hset h r o) r = some o := by
  induction h generalizing r with
  | nil => exact absurd hr (Nat.not_lt_zero r)
  | cons a t ih =>
    cases r with
    | zero => rfl
    | succ n => exact ih n (Nat.lt_of_succ_lt_succ hr)

theorem getMat_set_lt (h : Heap K) (r : Nat) (M : Mat3 K) (hr : r < h.length) :
    getMat (hset h r (HObj.mat M)) r = M := by
  simp [getMat, hget_set_lt h r _ hr]

theorem getVec_set_lt (h : Heap K) (r : Nat) (v : Vec3 K) (hr : r < h.length) :
    getVec (hset h r (HObj.vec v)) r = v := by
  simp [getVec, hget_set_lt h r _ hr]

theorem getMat_set_ne (h : Heap K) (r i : Nat) (o : HObj K) (hne : i ≠ r) :
    getMat (hset h r o) i = getMat h i := by
  simp [getMat, hget_set_ne h r i o hne]

theorem getVec_set_ne (h : Heap K) (r i : Nat) (o : HObj K) (hne : i ≠ r) :
    getVec (hset h r o) i = getVec h i := by
  simp [getVec, hget_set_ne h r i o hne]

theorem extends_trans (a b c : Heap K) (h1 : Extends a b) (h2 : Extends b c) :
    Extends a c :=
  ⟨Nat.le_trans h1.1 h2.1, fun i hi =>
    (h2.2 i (Nat.lt_of_lt_of_le hi h1.1)).trans (h1.2 i hi)⟩

theorem extends_append_of (h h1 l : Heap K) (hx : Extends h h1) :
    Extends h (h1 ++ l) :=
  extends_trans h h1 (h1 ++ l) hx (extends_append h1 l)

theorem extends_set_ge (h h1 : Heap K) (r : Nat) (o : HObj K)
    (hx : Extends h h1) (hr : h.length ≤ r) : Extends h (hset h1 r o) :=
  ⟨by rw [hset_length]; exact hx.1, fun i hi => by
    rw [hget_set_ne h1 r i o (Nat.ne_of_lt (Nat.lt_of_lt_of_le hi hr))]
    exact hx.2 i hi⟩

theorem getMat_extends (h h2 : Heap K) (r : Nat) (hx : Extends h h2)
    (hr : r < h.length) : getMat h2 r = getMat h r := by
  simp [getMat, hx.2 r hr]

theorem getVec_extends (h h2 : Heap K) (r : Nat) (hx : Extends h h2)
    (hr : r < h.length) : getVec h2 r = getVec h r := by
  simp [getVec, hx.2 r hr]

/-- Claim C9: `attach_parallel` and `bridge` are pure with respect to the
receiver: the output heap extends the input heap without modifying any
existing cell, the receiver's impedance matrix and open-circuit voltage vector
read back unchanged after the call, and the returned network's references
point at freshly allocated cells. -/
theorem C9_pure (h : Heap K) (np : NP3) (ty ti tz tb : K) (p q1 q2 : Fin 3)
    (hz : np.zref < h.length) (hv : np.vref < h.length) :
    (Extends h (attachParallel h np ty ti p).1 ∧
     getMat (attachParallel h np ty ti p).1 np.zref = getMat h np.zref ∧
     getVec (attachParallel h np ty ti p).1 np.vref = getVec h np.vref ∧
     h.length ≤ ((attachParallel h np ty ti p).2).zref ∧
     h.length ≤ ((attachParallel h np ty ti p).2).vref) ∧
    (Extends h (bridge3 h np tz tb q1 q2).1 ∧
     getMat (bridge3 h np tz tb q1 q2).1 np.zref = getMat h np.zref ∧
     getVec (bridge3 h np tz tb q1 q2).1 np.vref = getVec h np.vref ∧
     h.length ≤ ((bridge3 h np tz tb q1 q2).2).zref ∧
     h.length ≤ ((bridge3 h np tz tb q1 q2).2).vref) := by
  constructor
  · have hext : Extends h (attachParallel h np ty ti p).1 := by
      simp only [attachParallel, npY, npIsc]
      exact extends_append_of _ _ _ (extends_append_of _ _ _ (extends_set_ge _ _ _ _
        (extends_append_of _ _ _ (extends_append_of _ _ _ (extends_set_ge _ _ _ _
          (extends_append _ _) (Nat.le_refl _))))
        (by simp [hset_length]; omega)))
    refine ⟨hext, getMat_extends _ _ _ hext hz, getVec_extends _ _ _ hext hv, ?_, ?_⟩ <;>
    · simp only [attachParallel, npY, npIsc]
      simp [hset_length]
      omega
  · have hext : Extends h (bridge3 h np tz tb q1 q2).1 := by
      simp only [bridge3, npY, npIsc]
      exact extends_append_of _ _ _ (extends_append_of _ _ _ (extends_append_of _ _ _
        (extends_set_ge _ _ _ _ (extends_set_ge _ _ _ _
          (extends_append_of _ _ _ (extends_append_of _ _ _ (extends_append_of _ _ _
            (extends_append_of _ _ _
              (extends_set_ge _ _ _ _ (extends_set_ge _ _ _ _ (extends_set_ge _ _ _ _
                (extends_set_ge _ _ _ _ (extends_append _ _) (Nat.le_refl _))
                (Nat.le_refl _)) (Nat.le_refl _)) (Nat.le_refl _))))))
          (by simp [hset_length]; omega)) (by simp [hset_length]; omega))))
    refine ⟨hext, getMat_extends _ _ _ hext hz, getVec_extends _ _ _ hext hv, ?_, ?_⟩ <;>
    · simp only [bridge3, npY, npIsc]
      simp [hset_length]
      omega

theorem hget_mid1 (X : Heap K) (a : HObj K) (l1 : Heap K) :
    hget (X ++ [a] ++ l1) X.length = some a := by
  rw [hget_append_lt _ _ _ (by simp only [List.length_append,
    List.length_cons, List.length_nil]; omega), hget_append_len]

theorem hget_mid2 (X : Heap K) (a : HObj K) (l1 l2 : Heap K) :
    hget (X ++ [a] ++ l1 ++ l2) X.length = some a := by
  rw [hget_append_lt _ _ _ (by simp only [List.length_append,
    List.length_cons, List.length_nil]; omega), hget_mid1]

theorem hget_mid3 (X : Heap K) (a : HObj K) (l1 l2 l3 : Heap K) :
    hget (X ++ [a] ++ l1 ++ l2 ++ l3) X.length = some a := by
  rw [hget_append_lt _ _ _ (by simp only [List.length_append,
    List.length_cons, List.length_nil]; omega), hget_mid2]

theorem hget_mid4 (X : Heap K) (a : HObj K) (l1 l2 l3 l4 : Heap K) :
    hget (X ++ [a] ++ l1 ++ l2 ++ l3 ++ l4) X.length = some a := by
  rw [hget_append_lt _ _ _ (by simp only [List.length_append,
    List.length_cons, List.length_nil]; omega), hget_mid3]

theorem hget_mid5 (X : Heap K) (a : HObj K) (l1 l2 l3 l4 l5 : Heap K) :
    hget (X ++ [a] ++ l1 ++ l2 ++ l3 ++ l4 ++ l5) X.length = some a := by
  rw [hget_append_lt _ _ _ (by simp only [List.length_append,
    List.length_cons, List.length_nil]; omega), hget_mid4]

theorem getMat_mid1 (X : Heap K) (M : Mat3 K) (l1 : Heap K) :
    getMat (X ++ [HObj.mat M] ++ l1) X.length = M := by
  simp only [getMat]
  rw [hget_mid1]

theorem getMat_mid2 (X : Heap K) (M : Mat3 K) (l1 l2 : Heap K) :
    getMat (X ++ [HObj.mat M] ++ l1 ++ l2) X.length = M := by
  simp only [getMat]
  rw [hget_mid2]

theorem getMat_mid3 (X : Heap K) (M : Mat3 K) (l1 l2 l3 : Heap K) :
    getMat (X ++ [HObj.mat M] ++ l1 ++ l2 ++ l3) X.length = M := by
  simp only [getMat]
  rw [hget_mid3]

theorem getMat_mid4 (X : Heap K) (M : Mat3 K) (l1 l2 l3 l4 : Heap K) :
    getMat (X ++ [HObj.mat M] ++ l1 ++ l2 ++ l3 ++ l4) X.length = M := by
  simp only [getMat]
  rw [hget_mid4]

theorem getMat_mid5 (X : Heap K) (M : Mat3 K) (l1 l2 l3 l4 l5 : Heap K) :
    getMat (X ++ [HObj.mat M] ++ l1 ++ l2 ++ l3 ++ l4 ++ l5) X.length = M := by
  simp only [getMat]
  rw [hget_mid5]

theorem getVec_mid1 (X : Heap K) (v : Vec3 K) (l1 : Heap K) :
    getVec (X ++ [HObj.vec v] ++ l1) X.length = v := by
  simp only [getVec]
  rw [hget_mid1]

theorem getVec_mid2 (X : Heap K) (v : Vec3 K) (l1 l2 : Heap K) :
    getVec (X ++ [HObj.vec v] ++ l1 ++ l2) X.length = v := by
  simp only [getVec]
  rw [hget_mid2]

theorem getVec_mid3 (X : Heap K) (v : Vec3 K) (l1 l2 l3 : Heap K) :
    getVec (X ++ [HObj.vec v] ++ l1 ++ l2 ++ l3) X.length = v := by
  simp only [getVec]
  rw [hget_mid3]

theorem getVec_mid4 (X : Heap K) (v : Vec3 K) (l1 l2 l3 l4 : Heap K) :
    getVec (X ++ [HObj.vec v] ++ l1 ++ l2 ++ l3 ++ l4) X.length = v := by
  simp only [getVec]
  rw [hget_mid4]

theorem getVec_mid5 (X : Heap K) (v : Vec3 K) (l1 l2 l3 l4 l5 : Heap K) :
    getVec (X ++ [HObj.vec v] ++ l1 ++ l2 ++ l3 ++ l4 ++ l5) X.length = v := by
  simp only [getVec]
  rw [hget_mid5]

/-- Claim C10: the short-circuit current vector of a three-port satisfies
Isc[m] = Voc[m] * Y[m,m] for each port m, where Y is the admittance matrix
(the inverse of the stored impedance matrix); and the networks returned by
`attach_parallel` and `parallel` carry an open-circuit voltage vector with
Voc[m] = Isc[m] * Z[m,m], where Isc is the updated short-circuit current
vector and Z the impedance matrix stored in the returned network.  All three
formulas read only the diagonal entries of the admittance and impedance
matrices. -/
theorem C10_diag (h : Heap K) (np x : NP3) (ty ti : K) (p : Fin 3)
    (hz : np.zref < h.length) (hv : np.vref < h.length)
    (hxz : x.zref < h.length) (hxv : x.vref < h.length) :
    (∀ m, getVec (npIsc h np).1 (npIsc h np).2 m
        = getVec h np.vref m * inv3 (getMat h np.zref) m m) ∧
    (∀ m, getVec (attachParallel h np ty ti p).1 ((attachParallel h np ty ti p).2).vref m
        = updV (fun k => getVec h np.vref k * inv3 (getMat h np.zref) k k) p
            (getVec h np.vref p * inv3 (getMat h np.zref) p p + ti) m
          * getMat (attachParallel h np ty ti p).1
              ((attachParallel h np ty ti p).2).zref m m) ∧
    (∀ m, getVec (parallel3 h np x).1 ((parallel3 h np x).2).vref m
        = (getVec h np.vref m * inv3 (getMat h np.zref) m m
            + getVec h x.vref m * inv3 (getMat h x.zref) m m)
          * getMat (parallel3 h np x).1 ((parallel3 h np x).2).zref m m) := by
  have hzn : np.zref ≠ h.length := Nat.ne_of_lt hz
  have hvn : np.vref ≠ h.length := Nat.ne_of_lt hv
  have hxzn : x.zref ≠ h.length := Nat.ne_of_lt hxz
  have hxvn : x.vref ≠ h.length := Nat.ne_of_lt hxv
  refine ⟨?_, ?_, ?_⟩
  · intro m
    rw [npIsc_eq h np hv, getVec_append2_len]
  · intro m
    simp only [attachParallel, npY, npIsc]
    simp only [hset_concat]
    simp only [getMat_concat_len, getVec_concat_len, getMat_mid1, getMat_mid2,
      getMat_mid3, getMat_mid4, getMat_mid5, getVec_mid1, getVec_mid2,
      getVec_mid3, getVec_mid4, getVec_mid5]
    simp [getMat_append_lt, getVec_append_lt, hz, hv, Nat.lt_succ_of_lt]
  · intro m
    simp only [parallel3, npY, npIsc]
    simp only [getMat_concat_len, getVec_concat_len, getMat_mid1, getMat_mid2,
      getMat_mid3, getMat_mid4, getMat_mid5, getVec_mid1, getVec_mid2,
      getVec_mid3, getVec_mid4, getVec_mid5]
    simp [getMat_append_lt, getVec_append_lt, hz, hv, hxz, hxv, Nat.lt_succ_of_lt]

theorem C9_witness :
    wnp9.zref < wheap9.length ∧ wnp9.vref < wheap9.length ∧
    Extends wheap9 (attachParallel wheap9 wnp9 1 1 0).1 ∧
    Extends wheap9 (bridge3 wheap9 wnp9 1 1 0 1).1 :=
  ⟨by decide, by decide,
   ((C9_pure wheap9 wnp9 1 1 1 1 0 0 1 (by decide) (by decide)).1).1,
   ((C9_pure wheap9 wnp9 1 1 1 1 0 0 1 (by decide) (by decide)).2).1⟩

theorem C10_witness :
    wnp10.zref < wheap10.length ∧ wnp10.vref < wheap10.length ∧
    ∀ m, getVec (npIsc wheap10 wnp10).1 (npIsc wheap10 wnp10).2 m
        = getVec wheap10 wnp10.vref m * inv3 (getMat wheap10 wnp10.zref) m m :=
  ⟨by decide, by decide,
   (C10_diag wheap10 wnp10 wnp10 1 1 0 (by decide) (by decide)
     (by decide) (by decide)).1⟩

end Mcircuit

